import Mathlib

/-! # rscryutil: decryption of rsyslog encrypted log files

A shallow embedding of `tools/rscryutil.c` and a verification of its
padding removal, its encryption-info (metadata) record parser and its
segment decryption loop.

Conventions of the embedding

* a byte of a binary buffer is a `Nat` (its unsigned value), a binary
  buffer is a `List Nat`;
* a character of the text metadata stream is a `Char`, a `FILE *` open for
  reading is the list of characters (bytes) not yet consumed;
* a C string is the list of characters before its terminating NUL, so
  `strlen` is `List.length` and `strcmp(a, b) == 0` is `a = b`;
* `size_t` and `off64_t` are 64 bits wide, `unsigned` is 32 bits wide; a
  conversion that can wrap is written with an explicit `%`.
-/

namespace Rscryutil

/-! ## removePadding -/

/-- Library function `memchr(buf, c, n)`: the index of the first byte equal to `c`
among the first `n` bytes of `buf`, `none` for a `NULL` result. -/
def memchr : List Nat → Nat → Nat → Option Nat
  | [], _, _ => none
  | _ :: _, _, 0 => none
  | b :: bs, c, n + 1 => if b = c then some 0 else (memchr bs c n).map (· + 1)

/-- The loop `while(iSrc < len) { if(buf[iSrc] != 0x00) buf[iDst++] = buf[iSrc]; ++iSrc; }`
of `removePadding`.  The first argument counts the iterations still allowed and is
`len - iSrc` at the call; the result is the buffer and `iDst` at loop exit. -/
def removePaddingLoop : Nat → List Nat → Nat → Nat → Nat → List Nat × Nat
  | 0, buf, _, _, iDst => (buf, iDst)
  | fuel + 1, buf, len, iSrc, iDst =>
    if iSrc < len then
      if buf.getD iSrc 0 ≠ 0 then
        removePaddingLoop fuel (buf.set iDst (buf.getD iSrc 0)) len (iSrc + 1) (iDst + 1)
      else
        removePaddingLoop fuel buf len (iSrc + 1) iDst
    else (buf, iDst)

/-- Function `removePadding(char *buf, size_t *plen)`: the buffer and `*plen` after the call.
`len` is `*plen` converted to `unsigned`, and so are `iSrc` and `iDst`. -/
def removePadding (buf : List Nat) (plen : Nat) : List Nat × Nat :=
  let len := plen % 2 ^ 32
  match memchr buf 0 plen with
  | none => (buf, plen)
  | some frstNUL =>
    let iSrc := frstNUL % 2 ^ 32
    removePaddingLoop (len - iSrc) buf len iSrc iSrc

/-! ## The encryption-info (metadata) stream -/

/-- What the translation leaves open: the constants of `libgcry.h`, a header that is not part of
`tools/rscryutil.c`, and the indeterminate contents of the uninitialised line buffer of
`eiGetRecord` (`junk i` is what `buf[i]` holds where `fgets` did not write). -/
structure Env where
  EIF_MAX_RECTYPE_LEN : Nat
  EIF_MAX_VALUE_LEN : Nat
  RSGCRY_FILETYPE_NAME : List Char
  junk : Nat → Char

/-- The loop of library function `fgets`: at most `n` characters are taken, the newline is the
last one taken.  The result is the characters stored and the rest of the stream. -/
def fgetsLine : Nat → List Char → List Char × List Char
  | 0, s => ([], s)
  | _ + 1, [] => ([], [])
  | n + 1, c :: cs =>
    if c = '\n' then ([c], cs) else ((fgetsLine n cs).1.cons c, (fgetsLine n cs).2)

/-- Library function `fgets(buf, size, fp)`: `none` is the `NULL` result (end of file before any
character), otherwise the characters stored before the terminating NUL and the rest of the
stream. -/
def fgets (size : Nat) (fp : List Char) : Option (List Char × List Char) :=
  match fp with
  | [] => none
  | _ :: _ => some (fgetsLine (size - 1) fp)

/-- The line buffer `buf` of `eiGetRecord` after `fgets` stored `line`: the line, its terminating
NUL, and behind it what the uninitialised array held. -/
def bufAt (env : Env) (line : List Char) (i : Nat) : Char :=
  (line ++ ['\x00']).getD i (env.junk i)

/-- The first loop of `eiGetRecord`,
`for(i = 0 ; i < EIF_MAX_RECTYPE_LEN && buf[i] != ':' ; ++i)`, copying into `rectype`.
The first argument is `EIF_MAX_RECTYPE_LEN - i` at the call.  `none` is the exit `r = 2`,
otherwise `i` and the characters copied at loop exit. -/
def tagLoop (buf : Nat → Char) (lim : Nat) : Nat → Nat → List Char → Option (Nat × List Char)
  | 0, i, rectype => some (i, rectype)
  | fuel + 1, i, rectype =>
    if i < lim ∧ buf i ≠ ':' then
      if buf i = '\x00' then none
      else tagLoop buf lim fuel (i + 1) (rectype ++ [buf i])
    else some (i, rectype)

/-- The second loop of `eiGetRecord`,
`for(++i ; i < EIF_MAX_VALUE_LEN && buf[i] != '\n' ; ++i, ++j)`, copying into `value`.
The first argument is `EIF_MAX_VALUE_LEN - i` at the call.  `none` is the exit `r = 3`,
otherwise the characters copied at loop exit. -/
def valueLoop (buf : Nat → Char) (lim : Nat) : Nat → Nat → List Char → Option (List Char)
  | 0, _, value => some value
  | fuel + 1, i, value =>
    if i < lim ∧ buf i ≠ '\n' then
      if buf i = '\x00' then none
      else valueLoop buf lim fuel (i + 1) (value ++ [buf i])
    else some value

/-- Result of `eiGetRecord`: the return value, the stream after the call and the two output
strings.  No caller reads the outputs after a non-zero result; they are empty then. -/
structure RecordResult where
  r : Int
  eifp : List Char
  rectype : List Char
  value : List Char
deriving DecidableEq

/-- Function `eiGetRecord(FILE *eifp, char *rectype, char *value)`. -/
def eiGetRecord (env : Env) (eifp : List Char) : RecordResult :=
  match fgets (env.EIF_MAX_RECTYPE_LEN + env.EIF_MAX_VALUE_LEN + 128) eifp with
  | none => ⟨1, eifp, [], []⟩
  | some (line, rest) =>
    match tagLoop (bufAt env line) env.EIF_MAX_RECTYPE_LEN env.EIF_MAX_RECTYPE_LEN 0 [] with
    | none => ⟨2, rest, [], []⟩
    | some (i, rectype) =>
      match valueLoop (bufAt env line) env.EIF_MAX_VALUE_LEN
          (env.EIF_MAX_VALUE_LEN - (i + 1)) (i + 1) [] with
      | none => ⟨3, rest, [], []⟩
      | some value => ⟨0, rest, rectype, value⟩

/-- Function `eiCheckFiletype(FILE *eifp)`: the return value and the stream after the call. -/
def eiCheckFiletype (env : Env) (eifp : List Char) : Int × List Char :=
  let rec_ := eiGetRecord env eifp
  if rec_.r ≠ 0 then (rec_.r, rec_.eifp)
  else if rec_.rectype ≠ ['F', 'I', 'L', 'E', 'T', 'Y', 'P', 'E']
      ∨ rec_.value ≠ env.RSGCRY_FILETYPE_NAME then (1, rec_.eifp)
  else (0, rec_.eifp)

/-- The nibble that `eiGetIV` computes for one character of the value, `none` for the
`invalid IV` branch. -/
def nibbleOf (c : Char) : Option Nat :=
  if '0'.toNat ≤ c.toNat ∧ c.toNat ≤ '9'.toNat then some (c.toNat - '0'.toNat)
  else if 'a'.toNat ≤ c.toNat ∧ c.toNat ≤ 'f'.toNat then some (c.toNat - 'a'.toNat + 10)
  else none

/-- The loop `for(i = j = 0 ; i < valueLen ; ++i)` of `eiGetIV`, run on the characters
`value[i ..]` still to be read: the return value set by the loop (`1` at an invalid character,
`0` at the end) and the buffer `iv`.  A store outside the array that the caller passed is
dropped. -/
def ivLoop : List Char → Nat → Nat → List Nat → Int × List Nat
  | [], _, _, iv => (0, iv)
  | c :: cs, i, j, iv =>
    match nibbleOf c with
    | none => (1, iv)
    | some nibble =>
      if i % 2 = 0 then ivLoop cs (i + 1) j (iv.set j ((nibble <<< 4) % 256))
      else ivLoop cs (i + 1) (j + 1) (iv.set j (iv.getD j 0 ||| nibble))

/-- Result of `eiGetIV`: the return value, the stream after the call and the buffer `iv`. -/
structure IVResult where
  r : Int
  eifp : List Char
  iv : List Nat
deriving DecidableEq

/-- Function `eiGetIV(FILE *eifp, char *iv, size_t leniv)`. -/
def eiGetIV (env : Env) (eifp : List Char) (iv : List Nat) (leniv : Nat) : IVResult :=
  let rec_ := eiGetRecord env eifp
  if rec_.r ≠ 0 then ⟨rec_.r, rec_.eifp, iv⟩
  else if rec_.rectype ≠ ['I', 'V'] then ⟨1, rec_.eifp, iv⟩
  else
    let valueLen := rec_.value.length
    if valueLen / 2 ≠ leniv then ⟨1, rec_.eifp, iv⟩
    else ⟨(ivLoop rec_.value 0 0 iv).1, rec_.eifp, (ivLoop rec_.value 0 0 iv).2⟩

/-- Library predicate `isspace` in the C locale. -/
def isspace (c : Char) : Bool :=
  c = ' ' || c = '\t' || c = '\n' || c = '\x0b' || c = '\x0c' || c = '\r'

/-- Library predicate `isdigit`. -/
def isdigit (c : Char) : Bool :=
  decide ('0'.toNat ≤ c.toNat ∧ c.toNat ≤ '9'.toNat)

/-- The digit loop of `atoll`: the number read so far is `acc`, it stops at the first character
that is not a decimal digit. -/
def atollDigits : List Char → Nat → Nat
  | [], acc => acc
  | c :: cs, acc => if isdigit c then atollDigits cs (10 * acc + (c.toNat - '0'.toNat)) else acc

/-- The sign and the digits of `atoll`, on the string behind the white space. -/
def atollSigned : List Char → Int
  | '-' :: t => - (atollDigits t 0 : Int)
  | '+' :: t => (atollDigits t 0 : Int)
  | s => (atollDigits s 0 : Int)

/-- Library function `atoll` (`strtoll` in base 10 without error report): white space is
skipped, one sign is taken, then the decimal digits; a value outside `long long` is the nearest
bound of the type. -/
def atoll (s : List Char) : Int :=
  max (-(2 ^ 63 : Int)) (min (atollSigned (s.dropWhile isspace)) (2 ^ 63 - 1))

/-- Result of `eiGetEND`: the return value, the stream after the call and `*offs`. -/
structure ENDResult where
  r : Int
  eifp : List Char
  offs : Int
deriving DecidableEq

/-- Function `eiGetEND(FILE *eifp, off64_t *offs)`; `offs` is `*offs` before the call. -/
def eiGetEND (env : Env) (eifp : List Char) (offs : Int) : ENDResult :=
  let rec_ := eiGetRecord env eifp
  if rec_.r ≠ 0 then ⟨rec_.r, rec_.eifp, offs⟩
  else if rec_.rectype ≠ ['E', 'N', 'D'] then ⟨1, rec_.eifp, offs⟩
  else ⟨0, rec_.eifp, atoll rec_.value⟩

/-! ## The cipher, the streams and the decryption loop -/

/-- The libgcrypt capability that `rscryutil.c` calls, for the fixed algorithm `GCRY_CIPHER` in
CBC mode.  `σ` is the state behind a cipher handle `gcry_cipher_hd_t`; a call that reports an
error is `none`. -/
structure Gcry (σ : Type) where
  /-- Value of `gcry_cipher_get_algo_blklen(GCRY_CIPHER)`. -/
  blklen : Nat
  /-- Value of `gcry_cipher_get_algo_keylen(GCRY_CIPHER)`. -/
  keylen : Nat
  /-- The `NULL` handle. -/
  null : σ
  /-- Call `gcry_cipher_open(&gcry_chd, GCRY_CIPHER, gcry_mode, 0)`. -/
  cipher_open : Option σ
  /-- Call `gcry_cipher_setkey(gcry_chd, key, keyLength)`. -/
  setkey : σ → List Char → Option σ
  /-- Call `gcry_cipher_setiv(gcry_chd, iv, blkLength)`. -/
  setiv : σ → List Nat → Option σ
  /-- Call `gcry_cipher_decrypt(gcry_chd, buf, nRead, NULL, 0)`, in place: the handle and the
  buffer after the call. -/
  decrypt : σ → List Nat → Option (σ × List Nat)

/-- The file-scope variables `gcry_chd` and `blkLength`. -/
structure Globals (σ : Type) where
  gcry_chd : σ
  blkLength : Nat

/-- An output `FILE *`: the bytes written so far and the number of bytes the stream still
accepts (a write beyond it is short). -/
structure Sink where
  data : List Nat
  room : Nat
deriving DecidableEq

/-- Library function `fwrite(buf, 1, n, fp)` for the `n` bytes `bytes`: the stream after the
call and the number of bytes written. -/
def fwrite (fp : Sink) (bytes : List Nat) : Sink × Nat :=
  let n := min bytes.length fp.room
  (⟨fp.data ++ bytes.take n, fp.room - n⟩, n)

/-- Library function `fread(buf, 1, toRead, fp)`: the bytes read (fewer than `toRead` at the end
of the file only) and the stream after the call. -/
def fread (toRead : Nat) (fp : List Nat) : List Nat × List Nat :=
  (fp.take toRead, fp.drop toRead)

/-- Result of `initCrypt`. -/
structure InitResult (σ : Type) where
  r : Int
  eifp : List Char
  globals : Globals σ

/-- Function `initCrypt(FILE *eifp, int gcry_mode, char *key)`.  The local array `iv[4096]` is
uninitialised; what it holds is read only where `eiGetIV` stored, so it starts as zeros here. -/
def initCrypt {σ : Type} (g : Gcry σ) (env : Env) (eifp : List Char) (key : List Char)
    (gl : Globals σ) : InitResult σ :=
  let blkLength := g.blklen
  if blkLength > 4096 then ⟨1, eifp, ⟨gl.gcry_chd, blkLength⟩⟩
  else
    let ivr := eiGetIV env eifp (List.replicate 4096 0) blkLength
    if ivr.r ≠ 0 then ⟨ivr.r, ivr.eifp, ⟨gl.gcry_chd, blkLength⟩⟩
    else
      let keyLength := g.keylen
      if key.length ≠ keyLength then ⟨1, ivr.eifp, ⟨gl.gcry_chd, blkLength⟩⟩
      else
        match g.cipher_open with
        | none => ⟨1, ivr.eifp, ⟨g.null, blkLength⟩⟩
        | some h0 =>
          match g.setkey h0 key with
          | none => ⟨1, ivr.eifp, ⟨h0, blkLength⟩⟩
          | some h1 =>
            match g.setiv h1 (ivr.iv.take blkLength) with
            | none => ⟨1, ivr.eifp, ⟨h1, blkLength⟩⟩
            | some h2 => ⟨0, ivr.eifp, ⟨h2, blkLength⟩⟩

/-- The state that `decryptBlock` and `doDecrypt` work on: the ciphertext stream `logfp`, the
output stream, the running offset `currOffs` and the file-scope variables. -/
structure DecState (σ : Type) where
  fpin : List Nat
  fpout : Sink
  currOffs : Int
  globals : Globals σ

/-- The loop `while(1)` of `decryptBlock`, with `leftTillBlkEnd` as last argument.  Every
iteration that does not leave the loop reads at least one byte, so the first argument, the
number of iterations still allowed, is taken as the length of the ciphertext stream plus one.
A remainder by `blkLength = 0` is taken as the dividend. -/
def decryptBlockLoop {σ : Type} (g : Gcry σ) : Nat → DecState σ → Nat → DecState σ
  | 0, st, _ => st
  | fuel + 1, st, leftTillBlkEnd =>
    let toRead0 := if 65536 ≤ leftTillBlkEnd then 65536 else leftTillBlkEnd
    let toRead := toRead0 - toRead0 % st.globals.blkLength
    let nRead := (fread toRead st.fpin).1.length
    if nRead = 0 then st
    else
      let st1 : DecState σ :=
        ⟨(fread toRead st.fpin).2, st.fpout, st.currOffs + nRead, st.globals⟩
      match g.decrypt st.globals.gcry_chd (fread toRead st.fpin).1 with
      | none => st1
      | some (chd, buf) =>
        let st2 : DecState σ := ⟨st1.fpin, st1.fpout, st1.currOffs, ⟨chd, st.globals.blkLength⟩⟩
        let nOut := (removePadding buf nRead).2
        let w := fwrite st2.fpout ((removePadding buf nRead).1.take nOut)
        if w.2 ≠ nOut then ⟨st2.fpin, w.1, st2.currOffs, st2.globals⟩
        else decryptBlockLoop g fuel ⟨st2.fpin, w.1, st2.currOffs, st2.globals⟩
          (leftTillBlkEnd - nRead)

/-- Function `decryptBlock(FILE *fpin, FILE *fpout, off64_t blkEnd, off64_t *pCurrOffs)`.
`leftTillBlkEnd` is the `off64_t` difference converted to `size_t`. -/
def decryptBlock {σ : Type} (g : Gcry σ) (st : DecState σ) (blkEnd : Int) : DecState σ :=
  let leftTillBlkEnd := ((blkEnd - st.currOffs) % 2 ^ 64).toNat
  decryptBlockLoop g (st.fpin.length + 1) st leftTillBlkEnd

/-- Result of `doDecrypt`: the return value, the metadata stream and the state at return. -/
structure DecResult (σ : Type) where
  r : Int
  eifp : List Char
  st : DecState σ

/-- The loop `while(1)` of `doDecrypt`; `r` and `blkEnd` are the locals of that name.  Every
iteration that does not leave the loop consumes a record of the metadata stream, so
the first argument, the number of iterations still allowed, is taken as the length of the
metadata stream plus one.  `gcry_cipher_close` releases the context and leaves the variable
`gcry_chd` as it is. -/
def doDecryptLoop {σ : Type} (g : Gcry σ) (env : Env) (key : List Char) :
    Nat → List Char → DecState σ → Int → Int → DecResult σ
  | 0, eifp, st, r, _ => ⟨r, eifp, st⟩
  | fuel + 1, eifp, st, r, blkEnd =>
    let ir := initCrypt g env eifp key st.globals
    if ir.r ≠ 0 then ⟨r, ir.eifp, ⟨st.fpin, st.fpout, st.currOffs, ir.globals⟩⟩
    else
      let er := eiGetEND env ir.eifp blkEnd
      if er.r ≠ 0 then ⟨er.r, er.eifp, ⟨st.fpin, st.fpout, st.currOffs, ir.globals⟩⟩
      else
        doDecryptLoop g env key fuel er.eifp
          (decryptBlock g ⟨st.fpin, st.fpout, st.currOffs, ir.globals⟩ er.offs) er.r er.offs

/-- Function `doDecrypt(FILE *logfp, FILE *eifp, FILE *outfp, char *key)`.  The locals `r` and
`blkEnd` are uninitialised at the loop entry; `r0` and `blkEnd0` are the values they hold. -/
def doDecrypt {σ : Type} (g : Gcry σ) (env : Env) (logfp : List Nat) (eifp : List Char)
    (outfp : Sink) (key : List Char) (gl : Globals σ) (r0 blkEnd0 : Int) : DecResult σ :=
  doDecryptLoop g env key (eifp.length + 1) eifp ⟨logfp, outfp, 0, gl⟩ r0 blkEnd0

/-- What a call of `decrypt` leaves behind: whether the label `err` was reached, the part of
the ciphertext file not read (`none` if the file was not opened), the standard output and
the file-scope variables. -/
structure DecryptOutcome (σ : Type) where
  err : Bool
  logfp : Option (List Nat)
  stdout : Sink
  globals : Globals σ

/-- Function `decrypt(char *name, char *key)`.  `logfile` and `eifile` are what `fopen` gives
for `name` and for `name` followed by `ENCINFO_SUFFIX`: the contents of the file, or `none` for
`NULL`. -/
def decrypt {σ : Type} (g : Gcry σ) (env : Env) (name : List Char) (key : List Char)
    (logfile : Option (List Nat)) (eifile : Option (List Char)) (stdout : Sink)
    (gl : Globals σ) (r0 blkEnd0 : Int) : DecryptOutcome σ :=
  if name = ['-'] then ⟨true, none, stdout, gl⟩
  else
    match logfile with
    | none => ⟨true, none, stdout, gl⟩
    | some logfp =>
      match eifile with
      | none => ⟨true, some logfp, stdout, gl⟩
      | some eifp =>
        if (eiCheckFiletype env eifp).1 ≠ 0 then ⟨true, some logfp, stdout, gl⟩
        else
          let d := doDecrypt g env logfp (eiCheckFiletype env eifp).2 stdout key gl r0 blkEnd0
          ⟨false, some d.st.fpin, d.st.fpout, d.st.globals⟩

/-! ## Definitions used to state the properties -/

/-- The characters that `eiGetIV` takes as hexadecimal digits, in the order of their values. -/
def lowerHexDigits : List Char := "0123456789abcdef".toList

/-- The upper-case hexadecimal digits `A` to `F`. -/
def upperHexLetters : List Char := "ABCDEF".toList

/-- Value of a hexadecimal digit: its position in `0123456789abcdef`. -/
def hexDigitValue (c : Char) : Nat := lowerHexDigits.indexOf c

/-- Base-10 value of a string of decimal digits, most significant digit first. -/
def base10 (s : List Char) : Nat :=
  Nat.ofDigits 10 (s.reverse.map (fun c => c.toNat - '0'.toNat))

/-- Whether a string starts with a decimal digit. -/
def startsWithDigit : List Char → Bool
  | [] => false
  | c :: _ => isdigit c

/-- Whether a string without leading white space begins with an integer: an optional sign
and then at least one decimal digit. -/
def signedStartsWithDigit : List Char → Bool
  | '-' :: t => startsWithDigit t
  | '+' :: t => startsWithDigit t
  | t => startsWithDigit t

/-- Whether a string begins with an integer as `atoll` reads one: optional white space, an
optional sign, and then at least one decimal digit. -/
def beginsWithInteger (s : List Char) : Bool :=
  signedStartsWithDigit (s.dropWhile isspace)

/-- The constants of `libgcry.h` as the rsyslog distribution defines them
(`EIF_MAX_RECTYPE_LEN` 31, `EIF_MAX_VALUE_LEN` 1023, the file type cookie), with a line buffer
that holds question marks where `fgets` did not write.  Used where a statement is evaluated on
a concrete input. -/
def upstreamEnv : Env :=
  ⟨31, 1023, "rsyslog-enrcyption-info".toList, fun _ => '?'⟩

/-- A stand-in for libgcrypt with block length 8 and key length 24 whose calls all succeed and
whose block transform is the identity.  Used where a statement is evaluated on a concrete
input. -/
def idGcry : Gcry Unit :=
  ⟨8, 24, (), some (), fun _ _ => some (), fun _ _ => some (), fun _ buf => some ((), buf)⟩

/-- The read size of one iteration of `decryptBlock`,
`toRead = sizeof(buf) <= leftTillBlkEnd ? sizeof(buf) : leftTillBlkEnd;` followed by
`toRead = toRead - toRead % blkLength;`, as a function of `blkLength` and `leftTillBlkEnd`. -/
def readSize (blkLength leftTillBlkEnd : Nat) : Nat :=
  (if 65536 ≤ leftTillBlkEnd then 65536 else leftTillBlkEnd)
    - (if 65536 ≤ leftTillBlkEnd then 65536 else leftTillBlkEnd) % blkLength

/-- A stand-in for libgcrypt with block length 8 and key length 24 whose block transform is the
identity and whose handle keeps the list of the lengths that `gcry_cipher_decrypt` was called
with.  Used where a statement is evaluated on a concrete input. -/
def lenLogGcry : Gcry (List Nat) :=
  ⟨8, 24, [], some [], fun h _ => some h, fun h _ => some h,
    fun h buf => some (h ++ [buf.length], buf)⟩

/-! ## The companion encryptor -/

/-- Modelled from the spec: the zero padding of the companion encryptor, which is not part of
`tools/rscryutil.c`.  A segment is filled with zero bytes up to a multiple of the block
length `b`. -/
def zeroPad (b : Nat) (p : List Nat) : List Nat :=
  p ++ List.replicate ((b - p.length % b) % b) 0

/-- Modelled from the spec: the value of an `IV` record as the companion encryptor writes it,
two lower-case hexadecimal digits for every byte, high nibble first. -/
def hexOfBytes : List Nat → List Char
  | [] => []
  | x :: xs =>
    lowerHexDigits.getD (x / 16) '0' :: lowerHexDigits.getD (x % 16) '0' :: hexOfBytes xs

/-- Modelled from the spec: the digits of `decimalOf`, most significant first, in front of
`acc`; the first argument bounds the number of digits. -/
def decimalAux : Nat → Nat → List Char → List Char
  | 0, _, acc => acc
  | fuel + 1, n, acc =>
    if n < 10 then Char.ofNat (48 + n) :: acc
    else decimalAux fuel (n / 10) (Char.ofNat (48 + n % 10) :: acc)

/-- Modelled from the spec: the value of an `END` record as the companion encryptor writes it,
the offset as a base-10 ASCII integer. -/
def decimalOf (n : Nat) : List Char := decimalAux (n + 1) n []

/-- Modelled from the spec: one segment of the companion encryptor, its initialisation vector
and its plaintext. -/
structure Segment where
  iv : List Nat
  plain : List Nat

/-- Modelled from the spec: the ciphertext file that the companion encryptor writes for a list
of segments: every segment is zero-padded to a multiple of the block length `b` and encrypted
under its own IV by `E` (CBC encryption under the key). -/
def encCiphertext (E : List Nat → List Nat → List Nat) (b : Nat) : List Segment → List Nat
  | [] => []
  | s :: ss => E s.iv (zeroPad b s.plain) ++ encCiphertext E b ss

/-- Modelled from the spec: the records that the companion encryptor writes to the metadata
stream behind the `FILETYPE` record: for every segment the record `IV` and the record `END`
with the offset in the ciphertext file at which the segment ends.  `offs` is the offset at
which the first segment of the list starts. -/
def encMetadata (E : List Nat → List Nat → List Nat) (b : Nat) : Nat → List Segment → List Char
  | _, [] => []
  | offs, s :: ss =>
    ['I', 'V'] ++ ':' :: (hexOfBytes s.iv ++ '\n' ::
      (['E', 'N', 'D'] ++ ':' ::
        (decimalOf (offs + (E s.iv (zeroPad b s.plain)).length) ++ '\n' ::
          encMetadata E b (offs + (E s.iv (zeroPad b s.plain)).length) ss)))

/-- Modelled from the spec: the plaintext of a list of segments. -/
def allPlain : List Segment → List Nat
  | [] => []
  | s :: ss => s.plain ++ allPlain ss

/-- Modelled from the spec: the cipher as a capability, `decrypt(ciphertext, key, iv)` gives
the plaintext.  `E iv m` is the CBC encryption of the block-aligned message `m` under the key
and `iv`; `Ready h c m` says that the handle `h` stands in a CBC stream whose remaining
ciphertext `c` belongs to the remaining plaintext `m`.  Opening the cipher and setting the key
succeed, setting an IV of one block leads to a handle that is ready for every message
encrypted under that IV, and decrypting a leading part of whole blocks gives the same part of
the plaintext and a handle that is ready for the rest. -/
structure CipherLaw {σ : Type} (g : Gcry σ) (key : List Char)
    (E : List Nat → List Nat → List Nat) (Ready : σ → List Nat → List Nat → Prop) : Prop where
  keylen : key.length = g.keylen
  blk_pos : 0 < g.blklen
  opened : ∃ h0 h1, g.cipher_open = some h0 ∧ g.setkey h0 key = some h1 ∧
    ∀ iv m, iv.length = g.blklen → g.blklen ∣ m.length →
      ∃ h2, g.setiv h1 iv = some h2 ∧ Ready h2 (E iv m) m
  step : ∀ h c m n, Ready h c m → 0 < n → n ≤ c.length → g.blklen ∣ n →
    ∃ h2, g.decrypt h (c.take n) = some (h2, m.take n) ∧ Ready h2 (c.drop n) (m.drop n)
  same_length : ∀ h c m, Ready h c m → c.length = m.length

/-! ## removePadding: the zero scan -/

/-- Function `memchr` finds nothing exactly when none of the first `n` bytes is `c`. -/
theorem memchr_none_iff (buf : List Nat) (c n : Nat) :
    memchr buf c n = none ↔ ∀ x ∈ buf.take n, x ≠ c := by
  induction buf generalizing n with
  | nil => simp [memchr]
  | cons b bs ih =>
    cases n with
    | zero => simp [memchr]
    | succ n =>
      by_cases hb : b = c
      · simp [memchr, hb]
      · simp [memchr, hb, ih]

/-- What `memchr` finds is the first occurrence of `c` among the first `n` bytes. -/
theorem memchr_some (buf : List Nat) (c n i : Nat) (h : memchr buf c n = some i) :
    i < n ∧ i < buf.length ∧ buf.getD i 0 = c ∧ ∀ x ∈ buf.take i, x ≠ c := by
  induction buf generalizing n i with
  | nil => simp [memchr] at h
  | cons b bs ih =>
    cases n with
    | zero => simp [memchr] at h
    | succ n =>
      by_cases hb : b = c
      · simp [memchr, hb] at h
        subst h
        simp [hb]
      · simp [memchr, hb] at h
        obtain ⟨j, hj, rfl⟩ := h
        obtain ⟨h1, h2, h3, h4⟩ := ih n j hj
        refine ⟨by omega, by simpa using h2, by simpa using h3, ?_⟩
        intro x hx
        simp at hx
        rcases hx with rfl | hx
        · exact hb
        · exact h4 x hx

/-- Invariant of the compaction loop: with `iDst <= iSrc`, the loop leaves the bytes before
`iDst`, puts behind them the non-zero bytes of `buf[iSrc..len)`, and leaves the bytes from the
final `iDst` on as they were. -/
theorem removePaddingLoop_spec (fuel : Nat) (buf : List Nat) (len iSrc iDst : Nat)
    (hds : iDst ≤ iSrc) (hlen : len ≤ buf.length) (hfuel : len - iSrc ≤ fuel) :
    (removePaddingLoop fuel buf len iSrc iDst).2
        = iDst + (((buf.take len).drop iSrc).filter (· ≠ 0)).length ∧
    (removePaddingLoop fuel buf len iSrc iDst).1
        = buf.take iDst ++ ((buf.take len).drop iSrc).filter (· ≠ 0)
            ++ buf.drop (removePaddingLoop fuel buf len iSrc iDst).2 := by
  induction fuel generalizing buf iSrc iDst with
  | zero =>
    have h : len ≤ iSrc := by omega
    have : (buf.take len).drop iSrc = [] := by
      apply List.drop_eq_nil_of_le; simp; omega
    simp [removePaddingLoop, this]
  | succ fuel ih =>
    by_cases hlt : iSrc < len
    · have hi : iSrc < buf.length := by omega
      have hdrop : (buf.take len).drop iSrc = buf[iSrc] :: (buf.take len).drop (iSrc + 1) := by
        rw [List.drop_eq_getElem_cons (by simp; omega)]
        simp
      by_cases hz : buf.getD iSrc 0 ≠ 0
      · have hx : buf[iSrc] ≠ 0 := by
          rwa [List.getD_eq_getElem _ _ hi] at hz
        have hstep : removePaddingLoop (fuel + 1) buf len iSrc iDst
            = removePaddingLoop fuel (buf.set iDst (buf.getD iSrc 0)) len (iSrc + 1) (iDst + 1) := by
          rw [removePaddingLoop, if_pos hlt, if_pos hz]
        rw [hstep, List.getD_eq_getElem _ _ hi]
        obtain ⟨h2, h1⟩ := ih (buf.set iDst buf[iSrc]) (iSrc + 1) (iDst + 1) (by omega)
          (by simpa using hlen) (by omega)
        have hsame : ((buf.set iDst buf[iSrc]).take len).drop (iSrc + 1)
            = (buf.take len).drop (iSrc + 1) := by
          rw [List.drop_take, List.drop_take, List.drop_set_of_lt _ _ (by omega)]
        rw [hsame] at h1 h2
        refine ⟨?_, ?_⟩
        · rw [h2, hdrop]; simp [hx]; omega
        · rw [h1, h2, hdrop]
          have ht : (buf.set iDst buf[iSrc]).take (iDst + 1) = buf.take iDst ++ [buf[iSrc]] := by
            rw [List.set_eq_take_append_cons_drop]
            simp [show iDst < buf.length by omega]
            rw [List.take_append_eq_append_take]
            simp [show iDst ≤ buf.length by omega]
          rw [ht, List.drop_set_of_lt _ _ (by omega)]
          simp [hx]
      · have hx : buf[iSrc] = 0 := by
          rw [List.getD_eq_getElem _ _ hi] at hz
          simpa using hz
        have hstep : removePaddingLoop (fuel + 1) buf len iSrc iDst
            = removePaddingLoop fuel buf len (iSrc + 1) iDst := by
          rw [removePaddingLoop, if_pos hlt, if_neg hz]
        rw [hstep]
        obtain ⟨h2, h1⟩ := ih buf (iSrc + 1) iDst (by omega) hlen (by omega)
        refine ⟨?_, ?_⟩
        · rw [h2, hdrop]; simp [hx]
        · rw [h1, h2, hdrop]; simp [hx]
    · have h : len ≤ iSrc := by omega
      have : (buf.take len).drop iSrc = [] := by
        apply List.drop_eq_nil_of_le; simp; omega
      simp [removePaddingLoop, hlt, this]

/-- The first occurrence of `c` among the first `n` bytes is what `memchr` finds. -/
theorem memchr_eq_some_of_first (buf : List Nat) (c n i : Nat) (hin : i < n)
    (hil : i < buf.length) (hc : buf.getD i 0 = c) (hbefore : ∀ x ∈ buf.take i, x ≠ c) :
    memchr buf c n = some i := by
  induction buf generalizing n i with
  | nil => simp at hil
  | cons b bs ih =>
    cases n with
    | zero => omega
    | succ n =>
      cases i with
      | zero =>
        have : b = c := by simpa using hc
        simp [memchr, this]
      | succ i =>
        have hb : b ≠ c := hbefore b (by simp)
        have := ih n i (by omega) (by simpa using hil) (by simpa using hc)
          (fun x hx => hbefore x (by simp [hx]))
        simp [memchr, hb, this]

/-- Without a zero byte among the first `plen` bytes nothing changes. -/
theorem removePadding_no_zero (buf : List Nat) (plen : Nat)
    (h : ∀ x ∈ buf.take plen, x ≠ 0) : removePadding buf plen = (buf, plen) := by
  have := (memchr_none_iff buf 0 plen).2 h
  simp [removePadding, this]

/-- After `removePadding` the first `*plen` bytes hold no zero byte. -/
theorem removePadding_head_nonzero (buf : List Nat) (plen : Nat) (hlen : plen ≤ buf.length) :
    ∀ x ∈ (removePadding buf plen).1.take (removePadding buf plen).2, x ≠ 0 := by
  cases hm : memchr buf 0 plen with
  | none =>
    have h := (memchr_none_iff buf 0 plen).1 hm
    rw [removePadding_no_zero buf plen h]
    exact h
  | some i =>
    obtain ⟨h1, h2, h3, h4⟩ := memchr_some buf 0 plen i hm
    have hmod : i % 2 ^ 32 ≤ i := Nat.mod_le _ _
    have hl : plen % 2 ^ 32 ≤ buf.length := le_trans (Nat.mod_le _ _) hlen
    have hr : removePadding buf plen
        = removePaddingLoop (plen % 2 ^ 32 - i % 2 ^ 32) buf (plen % 2 ^ 32)
            (i % 2 ^ 32) (i % 2 ^ 32) := by
      simp [removePadding, hm]
    rw [hr]
    generalize i % 2 ^ 32 = a at hmod
    generalize plen % 2 ^ 32 = L at hl
    obtain ⟨e2, e1⟩ := removePaddingLoop_spec (L - a) buf L a a le_rfl hl le_rfl
    intro x hx
    rw [e1] at hx
    rw [e2] at hx
    have hlen1 : (buf.take a).length = a := by
      rw [List.length_take]; omega
    rw [List.take_append_of_le_length (by rw [List.length_append, hlen1])] at hx
    rw [List.take_of_length_le (by rw [List.length_append, hlen1])] at hx
    rcases List.mem_append.1 hx with hx | hx
    · apply h4 x
      exact (List.take_subset_take_left buf hmod) hx
    · simpa using (List.mem_filter.1 hx).2

/-- C1: for every byte buffer of at least `n` bytes, `n <= 65536`, `removePadding` on its
first `n` bytes is the zero scan: with no zero byte the buffer and the length come back
unchanged; otherwise, with `i` the index of the first zero byte, the first `i` bytes are
unchanged, the bytes from index `i` up to the new length are the non-zero bytes of
`buf[i..n)` in their order, and the new length is `i` plus their number. -/
theorem removePadding_zero_scan (buf : List Nat) (n : Nat) (hn : n ≤ 65536)
    (hbuf : n ≤ buf.length) :
    ((∀ x ∈ buf.take n, x ≠ 0) → removePadding buf n = (buf, n)) ∧
    (∀ i, i < n → buf.getD i 0 = 0 → (∀ x ∈ buf.take i, x ≠ 0) →
      (removePadding buf n).1.take i = buf.take i ∧
      ((removePadding buf n).1.take (removePadding buf n).2).drop i
          = ((buf.take n).drop i).filter (· ≠ 0) ∧
      (removePadding buf n).2 = i + (((buf.take n).drop i).filter (· ≠ 0)).length) := by
  refine ⟨removePadding_no_zero buf n, ?_⟩
  intro i hin hz hbefore
  have hm := memchr_eq_some_of_first buf 0 n i hin (by omega) hz hbefore
  have hi32 : i % 2 ^ 32 = i := Nat.mod_eq_of_lt (by omega)
  have hn32 : n % 2 ^ 32 = n := Nat.mod_eq_of_lt (by omega)
  have hr : removePadding buf n = removePaddingLoop (n - i) buf n i i := by
    simp only [removePadding, hm, hi32, hn32]
  obtain ⟨e2, e1⟩ := removePaddingLoop_spec (n - i) buf n i i le_rfl hbuf le_rfl
  rw [hr]
  have hlen1 : (buf.take i).length = i := by
    rw [List.length_take]; omega
  refine ⟨?_, ?_, e2⟩
  · rw [e1, List.append_assoc, List.take_append_of_le_length (by omega),
      List.take_of_length_le (by omega)]
  · rw [e1, e2, List.take_append_of_le_length (by rw [List.length_append, hlen1]),
      List.take_of_length_le (by rw [List.length_append, hlen1]),
      List.drop_append_of_le_length (by omega), List.drop_of_length_le (by omega)]
    rfl

/-- C1, witness: the buffer `41 42 00 43 00 00` of length 6 gives `41 42 43`, length 3. -/
theorem removePadding_zero_scan_witness :
    (6 ≤ 65536 ∧ 6 ≤ [0x41, 0x42, 0x00, 0x43, 0x00, 0x00].length) ∧
    ((removePadding [0x41, 0x42, 0x00, 0x43, 0x00, 0x00] 6).1.take 2 = [0x41, 0x42] ∧
      ((removePadding [0x41, 0x42, 0x00, 0x43, 0x00, 0x00] 6).1.take
          (removePadding [0x41, 0x42, 0x00, 0x43, 0x00, 0x00] 6).2).drop 2 = [0x43] ∧
      (removePadding [0x41, 0x42, 0x00, 0x43, 0x00, 0x00] 6).2 = 3) ∧
    (removePadding [0x41, 0x42, 0x00, 0x43, 0x00, 0x00] 6).1.take 3 = [0x41, 0x42, 0x43] :=
  ⟨by decide,
   (removePadding_zero_scan [0x41, 0x42, 0x00, 0x43, 0x00, 0x00] 6 (by decide) (by decide)).2 2
      (by decide) (by decide) (by decide),
   by decide⟩

/-- C2: `removePadding` is idempotent: applied to the buffer and the length that it produced,
it gives the same buffer and the same length again. -/
theorem removePadding_idempotent (buf : List Nat) (plen : Nat) (hbuf : plen ≤ buf.length) :
    removePadding (removePadding buf plen).1 (removePadding buf plen).2
      = removePadding buf plen :=
  removePadding_no_zero _ _ (removePadding_head_nonzero buf plen hbuf)

/-- C2, witness: the buffer `41 42 00 43 00 00` of length 6. -/
theorem removePadding_idempotent_witness :
    6 ≤ [0x41, 0x42, 0x00, 0x43, 0x00, 0x00].length ∧
    removePadding (removePadding [0x41, 0x42, 0x00, 0x43, 0x00, 0x00] 6).1
        (removePadding [0x41, 0x42, 0x00, 0x43, 0x00, 0x00] 6).2
      = removePadding [0x41, 0x42, 0x00, 0x43, 0x00, 0x00] 6 :=
  ⟨by decide, removePadding_idempotent _ 6 (by decide)⟩

/-! ## eiGetRecord: one line of the metadata stream -/

/-- Function `fgets` on a line that fits the buffer: the line with its newline is stored. -/
theorem fgetsLine_line (n : Nat) (l rest : List Char) (hnl : ∀ c ∈ l, c ≠ '\n')
    (hn : l.length < n) : fgetsLine n (l ++ '\n' :: rest) = (l ++ ['\n'], rest) := by
  induction l generalizing n with
  | nil =>
    cases n with
    | zero => simp at hn
    | succ n => simp [fgetsLine]
  | cons c cs ih =>
    cases n with
    | zero => simp at hn
    | succ n =>
      have hc : c ≠ '\n' := hnl c (by simp)
      have := ih n (fun x hx => hnl x (by simp [hx])) (by simpa using hn)
      simp [fgetsLine, hc, this]

/-- The line buffer holds the line. -/
theorem bufAt_lt (env : Env) (ln : List Char) (i : Nat) (h : i < ln.length) :
    bufAt env ln i = ln[i] := by
  simp [bufAt, List.getD_eq_getElem?_getD, List.getElem?_append_left h, List.getElem?_eq_getElem h]

/-- The tag loop over characters that are neither `:` nor NUL copies them and stops at the
bound or at a `:`. -/
theorem tagLoop_spec (buf : Nat → Char) (lim : Nat) (tag : List Char) :
    ∀ (fuel i : Nat) (acc : List Char),
      (∀ k (h : k < tag.length), buf (i + k) = tag[k]) →
      (∀ c ∈ tag, c ≠ ':' ∧ c ≠ '\x00') →
      i + tag.length ≤ lim →
      (i + tag.length = lim ∨ buf (i + tag.length) = ':') →
      lim - i ≤ fuel →
      tagLoop buf lim fuel i acc = some (i + tag.length, acc ++ tag) := by
  induction tag with
  | nil =>
    intro fuel i acc _ _ _ hstop _
    cases fuel with
    | zero => simp [tagLoop]
    | succ fuel =>
      have : ¬ (i < lim ∧ buf i ≠ ':') := by
        rcases hstop with h | h
        · simp at h; omega
        · simp at h; simp [h]
      simp [tagLoop, this]
  | cons c cs ih =>
    intro fuel i acc hread hok hle hstop hfuel
    have hlen : (c :: cs).length = cs.length + 1 := rfl
    rw [hlen] at hle hstop
    cases fuel with
    | zero => omega
    | succ fuel =>
      have hc : buf i = c := by simpa using hread 0 (by simp)
      have hc1 := (hok c (by simp)).1
      have hc2 := (hok c (by simp)).2
      have hcond : i < lim ∧ buf i ≠ ':' := ⟨by omega, by rw [hc]; exact hc1⟩
      have hread1 : ∀ k (h : k < cs.length), buf (i + 1 + k) = cs[k] := by
        intro k h
        have := hread (k + 1) (by simp; omega)
        simpa [Nat.add_assoc, Nat.add_comm 1 k] using this
      have hstop1 : i + 1 + cs.length = lim ∨ buf (i + 1 + cs.length) = ':' := by
        rcases hstop with h | h
        · left; omega
        · right; rw [← h]; congr 1; omega
      rw [tagLoop, if_pos hcond, if_neg (by rw [hc]; exact hc2), hc]
      rw [ih fuel (i + 1) (acc ++ [c]) hread1 (fun x hx => hok x (by simp [hx])) (by omega)
        hstop1 (by omega)]
      simp [hlen]
      omega

/-- The value loop over characters that are neither newline nor NUL copies them and stops at
the bound or at a newline. -/
theorem valueLoop_spec (buf : Nat → Char) (lim : Nat) (value : List Char) :
    ∀ (fuel i : Nat) (acc : List Char),
      (∀ k (h : k < value.length), buf (i + k) = value[k]) →
      (∀ c ∈ value, c ≠ '\n' ∧ c ≠ '\x00') →
      (value = [] ∨ i + value.length ≤ lim) →
      (lim ≤ i + value.length ∨ buf (i + value.length) = '\n') →
      lim - i ≤ fuel →
      valueLoop buf lim fuel i acc = some (acc ++ value) := by
  induction value with
  | nil =>
    intro fuel i acc _ _ _ hstop _
    cases fuel with
    | zero => simp [valueLoop]
    | succ fuel =>
      have : ¬ (i < lim ∧ buf i ≠ '\n') := by
        rcases hstop with h | h
        · simp at h; omega
        · simp at h; simp [h]
      simp [valueLoop, this]
  | cons c cs ih =>
    intro fuel i acc hread hok hle hstop hfuel
    have hlen : (c :: cs).length = cs.length + 1 := rfl
    rw [hlen] at hstop
    have hle : i + (cs.length + 1) ≤ lim := by
      rcases hle with h | h
      · simp at h
      · simpa using h
    cases fuel with
    | zero => omega
    | succ fuel =>
      have hc : buf i = c := by simpa using hread 0 (by simp)
      have hc1 := (hok c (by simp)).1
      have hc2 := (hok c (by simp)).2
      have hcond : i < lim ∧ buf i ≠ '\n' := ⟨by omega, by rw [hc]; exact hc1⟩
      have hread1 : ∀ k (h : k < cs.length), buf (i + 1 + k) = cs[k] := by
        intro k h
        have := hread (k + 1) (by simp; omega)
        simpa [Nat.add_assoc, Nat.add_comm 1 k] using this
      have hstop1 : lim ≤ i + 1 + cs.length ∨ buf (i + 1 + cs.length) = '\n' := by
        rcases hstop with h | h
        · left; omega
        · right; rw [← h]; congr 1; omega
      rw [valueLoop, if_pos hcond, if_neg (by rw [hc]; exact hc2), hc]
      rw [ih fuel (i + 1) (acc ++ [c]) hread1 (fun x hx => hok x (by simp [hx]))
        (by right; omega) hstop1 (by omega)]
      simp

theorem bufAt_append_left (env : Env) (a b : List Char) (k : Nat) (h : k < a.length) :
    bufAt env (a ++ b) k = a[k] := by
  rw [bufAt_lt env (a ++ b) k (by simp; omega)]
  exact List.getElem_append_left h

theorem bufAt_append_right (env : Env) (a b : List Char) (k : Nat) (h : k < b.length) :
    bufAt env (a ++ b) (a.length + k) = b[k] := by
  rw [bufAt_lt env (a ++ b) (a.length + k) (by simp; omega)]
  rw [List.getElem_append_right (by omega)]
  simp

theorem fgets_of_ne_nil (size : Nat) (fp : List Char) (h : fp ≠ []) :
    fgets size fp = some (fgetsLine (size - 1) fp) := by
  cases fp with
  | nil => exact absurd rfl h
  | cons c cs => rfl

/-- What `eiGetRecord` returns on a line made of a tag, one character `x`, a value and a
newline, where `x` is the `:` or the tag has `EIF_MAX_RECTYPE_LEN` characters: the tag, and
the value cut where the index in the line reaches `EIF_MAX_VALUE_LEN`.  The character `x` is
skipped whatever it is. -/
theorem eiGetRecord_line_any (env : Env) (tag value rest : List Char) (x : Char)
    (hx : x = ':' ∨ (tag.length = env.EIF_MAX_RECTYPE_LEN ∧ x ≠ '\n'))
    (htag : ∀ c ∈ tag, c ≠ ':' ∧ c ≠ '\x00')
    (htagnl : ∀ c ∈ tag, c ≠ '\n')
    (hval : ∀ c ∈ value, c ≠ '\n' ∧ c ≠ '\x00')
    (ht : tag.length ≤ env.EIF_MAX_RECTYPE_LEN)
    (hfit : tag.length + value.length + 1
      < env.EIF_MAX_RECTYPE_LEN + env.EIF_MAX_VALUE_LEN + 127) :
    eiGetRecord env (tag ++ x :: (value ++ '\n' :: rest))
      = ⟨0, rest, tag, value.take (env.EIF_MAX_VALUE_LEN - (tag.length + 1))⟩ := by
  have hxnl : x ≠ '\n' := by
    rcases hx with h | h
    · rw [h]; decide
    · exact h.2
  have hfg : fgets (env.EIF_MAX_RECTYPE_LEN + env.EIF_MAX_VALUE_LEN + 128)
      (tag ++ x :: (value ++ '\n' :: rest))
      = some (tag ++ x :: (value ++ ['\n']), rest) := by
    rw [fgets_of_ne_nil _ _ (by simp)]
    have h := fgetsLine_line (env.EIF_MAX_RECTYPE_LEN + env.EIF_MAX_VALUE_LEN + 128 - 1)
      (tag ++ x :: value) rest
      (by
        intro c hc
        rcases List.mem_append.1 hc with h | h
        · exact htagnl c h
        · rcases List.mem_cons.1 h with h | h
          · rw [h]; exact hxnl
          · exact (hval c h).1)
      (by simp; omega)
    simpa using h
  have htl : tagLoop (bufAt env (tag ++ x :: (value ++ ['\n']))) env.EIF_MAX_RECTYPE_LEN
      env.EIF_MAX_RECTYPE_LEN 0 [] = some (tag.length, tag) := by
    have h := tagLoop_spec (bufAt env (tag ++ x :: (value ++ ['\n'])))
      env.EIF_MAX_RECTYPE_LEN tag env.EIF_MAX_RECTYPE_LEN 0 []
      (by
        intro k hk
        rw [Nat.zero_add]
        exact bufAt_append_left env tag _ k hk)
      htag (by omega)
      (by
        rcases hx with h | h
        · right
          rw [Nat.zero_add]
          have := bufAt_append_right env tag (x :: (value ++ ['\n'])) 0 (by simp)
          simpa [h] using this
        · left
          rw [Nat.zero_add]
          exact h.1)
      (by omega)
    simpa using h
  have hvl : valueLoop (bufAt env (tag ++ x :: (value ++ ['\n']))) env.EIF_MAX_VALUE_LEN
      (env.EIF_MAX_VALUE_LEN - (tag.length + 1)) (tag.length + 1) []
      = some (value.take (env.EIF_MAX_VALUE_LEN - (tag.length + 1))) := by
    have hrd : ∀ k, k < value.length + 1 →
        bufAt env (tag ++ x :: (value ++ ['\n'])) (tag.length + 1 + k)
          = (value ++ ['\n']).getD k ' ' := by
      intro k hk
      have := bufAt_append_right env tag (x :: (value ++ ['\n'])) (k + 1) (by simp; omega)
      rw [show tag.length + 1 + k = tag.length + (k + 1) by omega, this]
      rw [List.getElem_cons_succ]
      rw [List.getD_eq_getElem]
    have h := valueLoop_spec (bufAt env (tag ++ x :: (value ++ ['\n'])))
      env.EIF_MAX_VALUE_LEN (value.take (env.EIF_MAX_VALUE_LEN - (tag.length + 1)))
      (env.EIF_MAX_VALUE_LEN - (tag.length + 1)) (tag.length + 1) []
      (by
        intro k hk
        have hk2 : k < value.length := by
          rw [List.length_take] at hk; omega
        rw [hrd k (by omega), List.getD_eq_getElem _ _ (by simp; omega)]
        rw [List.getElem_append_left hk2, List.getElem_take])
      (fun c hc => hval c (List.mem_of_mem_take hc))
      (by
        rw [List.length_take]
        by_cases h0 : env.EIF_MAX_VALUE_LEN - (tag.length + 1) = 0
        · left; rw [h0]; rfl
        · right; omega)
      (by
        rw [List.length_take]
        by_cases hle : value.length ≤ env.EIF_MAX_VALUE_LEN - (tag.length + 1)
        · right
          rw [Nat.min_eq_right hle, hrd value.length (by omega)]
          rw [List.getD_eq_getElem _ _ (by simp)]
          simp
        · left; omega)
      le_rfl
    simpa using h
  simp only [eiGetRecord, hfg, htl, hvl]

/-- What `eiGetRecord` returns on a line `tag:value` that ends in a newline: the tag, and the
value cut where the index in the line reaches `EIF_MAX_VALUE_LEN`. -/
theorem eiGetRecord_line (env : Env) (tag value rest : List Char)
    (htag : ∀ c ∈ tag, c ≠ ':' ∧ c ≠ '\x00')
    (htagnl : ∀ c ∈ tag, c ≠ '\n')
    (hval : ∀ c ∈ value, c ≠ '\n' ∧ c ≠ '\x00')
    (ht : tag.length ≤ env.EIF_MAX_RECTYPE_LEN)
    (hfit : tag.length + value.length + 1
      < env.EIF_MAX_RECTYPE_LEN + env.EIF_MAX_VALUE_LEN + 127) :
    eiGetRecord env (tag ++ ':' :: (value ++ '\n' :: rest))
      = ⟨0, rest, tag, value.take (env.EIF_MAX_VALUE_LEN - (tag.length + 1))⟩ :=
  eiGetRecord_line_any env tag value rest ':' (Or.inl rfl) htag htagnl hval ht hfit

/-- A line with a tag of `EIF_MAX_RECTYPE_LEN` characters and no `:` behind it is read with
result 0, for every value of the constants: the character behind the tag is dropped. -/
theorem eiGetRecord_no_delimiter (env : Env) (tag value rest : List Char) (x : Char)
    (hlen : tag.length = env.EIF_MAX_RECTYPE_LEN) (hx : x ≠ '\n')
    (htag : ∀ c ∈ tag, c ≠ ':' ∧ c ≠ '\x00')
    (htagnl : ∀ c ∈ tag, c ≠ '\n')
    (hval : ∀ c ∈ value, c ≠ '\n' ∧ c ≠ '\x00')
    (hfit : tag.length + value.length + 1
      < env.EIF_MAX_RECTYPE_LEN + env.EIF_MAX_VALUE_LEN + 127) :
    (eiGetRecord env (tag ++ x :: (value ++ '\n' :: rest))).r = 0 ∧
    (eiGetRecord env (tag ++ x :: (value ++ '\n' :: rest))).rectype = tag := by
  rw [eiGetRecord_line_any env tag value rest x (Or.inr ⟨hlen, hx⟩) htag htagnl hval
    (by omega) hfit]
  exact ⟨rfl, rfl⟩

/-- C6, the code at the failing input: the line `IV:` followed by 1023 letters `a` and a
newline has a tag of 2 characters and a value of `EIF_MAX_VALUE_LEN` characters, none of them
NUL or newline, and `eiGetRecord` returns 0 with only the first 1020 characters of the value:
the bound `i < EIF_MAX_VALUE_LEN` is on the index in the line, not on the length of the
value. -/
theorem eiGetRecord_value_truncated :
    ['I', 'V'].length ≤ upstreamEnv.EIF_MAX_RECTYPE_LEN ∧
    (List.replicate 1023 'a').length ≤ upstreamEnv.EIF_MAX_VALUE_LEN ∧
    eiGetRecord upstreamEnv (['I', 'V'] ++ ':' :: (List.replicate 1023 'a' ++ ['\n']))
      = ⟨0, [], ['I', 'V'], List.replicate 1020 'a'⟩ ∧
    List.replicate 1020 'a' ≠ List.replicate 1023 'a' := by
  refine ⟨by decide, by rw [List.length_replicate]; decide, ?_, ?_⟩
  · have h := eiGetRecord_line upstreamEnv ['I', 'V'] (List.replicate 1023 'a') []
      (by decide) (by decide)
      (by
        intro c hc
        rw [List.eq_of_mem_replicate hc]
        decide)
      (by decide) (by rw [List.length_replicate]; decide)
    rw [h, List.take_replicate]
    rfl
  · intro h
    have := congrArg List.length h
    rw [List.length_replicate, List.length_replicate] at this
    omega

/-- C7, the code at the failing input: the line of 40 letters `A` and a newline has no `:`
at all, and `eiGetRecord` returns 0 on it, with the first `EIF_MAX_RECTYPE_LEN` characters as
the tag; the character of the line after the tag is `A`, not `:`. -/
theorem eiGetRecord_overlong_tag_accepted :
    (∀ c ∈ List.replicate 40 'A' ++ ['\n'], c ≠ ':') ∧
    eiGetRecord upstreamEnv (List.replicate 40 'A' ++ ['\n'])
      = ⟨0, [], List.replicate 31 'A', List.replicate 8 'A'⟩ ∧
    (List.replicate 40 'A' ++ ['\n']).getD (List.replicate 31 'A').length ' ' = 'A' := by
  decide

/-! ## eiCheckFiletype and decrypt -/

/-- C8: `eiCheckFiletype` returns 0 if and only if the first record of the metadata stream is
read with result 0, its tag is exactly `FILETYPE` and its value is exactly
`RSGCRY_FILETYPE_NAME`; a stream whose first record has the tag `IV` makes it return
non-zero; and whenever it returns non-zero, `decrypt` ends at `err` with no byte of the
ciphertext stream read and nothing written to the output. -/
theorem eiCheckFiletype_spec {σ : Type} (g : Gcry σ) (env : Env) (eifp : List Char) :
    ((eiCheckFiletype env eifp).1 = 0 ↔
      ((eiGetRecord env eifp).r = 0 ∧
        (eiGetRecord env eifp).rectype = ['F', 'I', 'L', 'E', 'T', 'Y', 'P', 'E'] ∧
        (eiGetRecord env eifp).value = env.RSGCRY_FILETYPE_NAME)) ∧
    ((eiGetRecord env eifp).rectype = ['I', 'V'] → (eiCheckFiletype env eifp).1 ≠ 0) ∧
    (∀ (name key : List Char) (logfp : List Nat) (stdout : Sink) (gl : Globals σ)
        (r0 blkEnd0 : Int),
      (eiCheckFiletype env eifp).1 ≠ 0 →
        (decrypt g env name key (some logfp) (some eifp) stdout gl r0 blkEnd0).err = true ∧
        (∀ unread, (decrypt g env name key (some logfp) (some eifp) stdout gl r0
            blkEnd0).logfp = some unread → unread = logfp) ∧
        (decrypt g env name key (some logfp) (some eifp) stdout gl r0 blkEnd0).stdout
          = stdout) := by
  have hiff : (eiCheckFiletype env eifp).1 = 0 ↔
      ((eiGetRecord env eifp).r = 0 ∧
        (eiGetRecord env eifp).rectype = ['F', 'I', 'L', 'E', 'T', 'Y', 'P', 'E'] ∧
        (eiGetRecord env eifp).value = env.RSGCRY_FILETYPE_NAME) := by
    unfold eiCheckFiletype
    by_cases hr : (eiGetRecord env eifp).r = 0
    · by_cases ht : (eiGetRecord env eifp).rectype = ['F', 'I', 'L', 'E', 'T', 'Y', 'P', 'E']
      · by_cases hv : (eiGetRecord env eifp).value = env.RSGCRY_FILETYPE_NAME
        · simp [hr, ht, hv]
        · simp [hr, ht, hv]
      · simp [hr, ht]
    · simp [hr]
  refine ⟨hiff, ?_, ?_⟩
  · intro hIV h0
    have := (hiff.1 h0).2.1
    rw [hIV] at this
    exact absurd this (by decide)
  · intro name key logfp stdout gl r0 blkEnd0 hne
    unfold decrypt
    by_cases hn : name = ['-']
    · simp [hn]
    · simp [hn, hne]

/-- C8, witness: a metadata stream that starts with an `IV` record; `decrypt` leaves the eight
bytes of the ciphertext file unread and the output empty.  A stream that starts with the
`FILETYPE` record of the cookie passes the check. -/
theorem eiCheckFiletype_spec_witness :
    (eiGetRecord upstreamEnv "IV:0102030405060708\nEND:8\n".toList).rectype = ['I', 'V'] ∧
    (eiCheckFiletype upstreamEnv "IV:0102030405060708\nEND:8\n".toList).1 ≠ 0 ∧
    (∀ unread, (decrypt idGcry upstreamEnv ['f'] (List.replicate 24 'k')
        (some [1, 2, 3, 4, 5, 6, 7, 8]) (some "IV:0102030405060708\nEND:8\n".toList)
        ⟨[], 100⟩ ⟨(), 0⟩ 0 0).logfp = some unread → unread = [1, 2, 3, 4, 5, 6, 7, 8]) ∧
    (decrypt idGcry upstreamEnv ['f'] (List.replicate 24 'k') (some [1, 2, 3, 4, 5, 6, 7, 8])
        (some "IV:0102030405060708\nEND:8\n".toList) ⟨[], 100⟩ ⟨(), 0⟩ 0 0).stdout
      = ⟨[], 100⟩ ∧
    (eiCheckFiletype upstreamEnv "FILETYPE:rsyslog-enrcyption-info\nIV:01\n".toList)
      = (0, "IV:01\n".toList) :=
  ⟨by decide,
   (eiCheckFiletype_spec idGcry upstreamEnv "IV:0102030405060708\nEND:8\n".toList).2.1
      (by decide),
   ((eiCheckFiletype_spec idGcry upstreamEnv "IV:0102030405060708\nEND:8\n".toList).2.2
      ['f'] (List.replicate 24 'k') [1, 2, 3, 4, 5, 6, 7, 8] ⟨[], 100⟩ ⟨(), 0⟩ 0 0
      (by decide)).2.1,
   ((eiCheckFiletype_spec idGcry upstreamEnv "IV:0102030405060708\nEND:8\n".toList).2.2
      ['f'] (List.replicate 24 'k') [1, 2, 3, 4, 5, 6, 7, 8] ⟨[], 100⟩ ⟨(), 0⟩ 0 0
      (by decide)).2.2,
   by decide⟩

/-! ## eiGetIV: the initialisation vector -/

theorem nibbleOf_lowerHex : ∀ c ∈ lowerHexDigits, nibbleOf c = some (hexDigitValue c) := by
  decide

theorem hexDigitValue_lt : ∀ c ∈ lowerHexDigits, hexDigitValue c < 16 := by
  decide

/-- Two nibbles packed as `eiGetIV` packs them: high nibble shifted, low nibble or-ed in. -/
theorem nibble_pack : ∀ a < 16, ∀ b < 16, ((a <<< 4) % 256) ||| b = 16 * a + b := by
  decide

/-- The decoding loop on `2 * n` lower-case hexadecimal digits, started at an even index:
it ends with 0, stores the `n` bytes from `iv[j]` on and leaves the bytes before `j`. -/
theorem ivLoop_pairs (n : Nat) :
    ∀ (value : List Char) (i j : Nat) (iv : List Nat),
      value.length = 2 * n → (∀ c ∈ value, c ∈ lowerHexDigits) → i % 2 = 0 →
      j + n ≤ iv.length →
      (ivLoop value i j iv).1 = 0 ∧
      (ivLoop value i j iv).2.length = iv.length ∧
      (∀ k, k < n → (ivLoop value i j iv).2.getD (j + k) 0
          = 16 * hexDigitValue (value.getD (2 * k) '0')
            + hexDigitValue (value.getD (2 * k + 1) '0')) ∧
      (∀ p, p < j → (ivLoop value i j iv).2.getD p 0 = iv.getD p 0) := by
  induction n with
  | zero =>
    intro value i j iv hlen _ _ _
    have : value = [] := List.length_eq_zero.1 (by simpa using hlen)
    subst this
    simp [ivLoop]
  | succ n ih =>
    intro value i j iv hlen hhex hi hj
    match value, hlen, hhex with
    | [], hlen, _ => simp at hlen
    | [_], hlen, _ => simp at hlen; omega
    | a :: b :: rest, hlen, hhex =>
      have ha := nibbleOf_lowerHex a (hhex a (by simp))
      have hb := nibbleOf_lowerHex b (hhex b (by simp))
      have hai := hexDigitValue_lt a (hhex a (by simp))
      have hbi := hexDigitValue_lt b (hhex b (by simp))
      have hjl : j < iv.length := by omega
      have hi1 : ¬ ((i + 1) % 2 = 0) := by omega
      have hstep : ivLoop (a :: b :: rest) i j iv
          = ivLoop rest (i + 2) (j + 1)
              (iv.set j (16 * hexDigitValue a + hexDigitValue b)) := by
        rw [ivLoop, ha]
        simp only [if_pos hi]
        rw [ivLoop, hb]
        simp only [if_neg hi1]
        rw [List.set_set, List.getD_eq_getElem _ _ (by simpa using hjl), List.getElem_set_self,
          nibble_pack _ hai _ hbi]
      rw [hstep]
      obtain ⟨h1, h2, h3, h4⟩ := ih rest (i + 2) (j + 1)
        (iv.set j (16 * hexDigitValue a + hexDigitValue b))
        (by simp at hlen; omega) (fun c hc => hhex c (by simp [hc])) (by omega)
        (by simpa using (by omega : j + 1 + n ≤ iv.length))
      refine ⟨h1, by simpa using h2, ?_, ?_⟩
      · intro k hk
        cases k with
        | zero =>
          have h0 := h4 j (by omega)
          rw [List.getD_eq_getElem (iv.set j _) _ (by simpa using hjl),
            List.getElem_set_self] at h0
          simpa using h0
        | succ k =>
          have := h3 k (by omega)
          rw [show j + (k + 1) = j + 1 + k by omega, this]
          simp [Nat.mul_add]
      · intro p hp
        rw [h4 p (by omega)]
        rw [List.getD_eq_getElem?_getD, List.getD_eq_getElem?_getD,
          List.getElem?_set_ne (by omega)]

/-- The decoding loop ends with 0 exactly when every character has a nibble. -/
theorem ivLoop_ok_iff (value : List Char) :
    ∀ (i j : Nat) (iv : List Nat),
      (ivLoop value i j iv).1 = 0 ↔ ∀ c ∈ value, nibbleOf c ≠ none := by
  induction value with
  | nil => intro i j iv; simp [ivLoop]
  | cons c cs ih =>
    intro i j iv
    cases hc : nibbleOf c with
    | none => simp [ivLoop, hc]
    | some nib =>
      by_cases hi : i % 2 = 0
      · simp [ivLoop, hc, hi, ih]
      · simp [ivLoop, hc, hi, ih]

/-- Function `eiGetIV` on an `IV` record that passes the length check is the decoding loop. -/
theorem eiGetIV_of_record (env : Env) (eifp : List Char) (iv : List Nat) (leniv : Nat)
    (value rest : List Char) (hrec : eiGetRecord env eifp = ⟨0, rest, ['I', 'V'], value⟩)
    (hlen : value.length / 2 = leniv) :
    eiGetIV env eifp iv leniv
      = ⟨(ivLoop value 0 0 iv).1, rest, (ivLoop value 0 0 iv).2⟩ := by
  simp [eiGetIV, hrec, hlen]

theorem upperHex_invalid : ∀ c ∈ upperHexLetters, nibbleOf c = none := by
  decide

/-- C3, as amended: for every `leniv` and every value made of exactly `2 * leniv` lower-case
hexadecimal digits (`0-9`, `a-f`), when the record that `eiGetRecord` reads next is `IV:value`,
`eiGetIV` returns 0 and for every `k < leniv` the output byte `iv[k]` is
`16 * digit(value[2k]) + digit(value[2k+1])`, high nibble first. -/
theorem eiGetIV_decodes (env : Env) (eifp : List Char) (iv : List Nat) (leniv : Nat)
    (value rest : List Char) (hrec : eiGetRecord env eifp = ⟨0, rest, ['I', 'V'], value⟩)
    (hlen : value.length = 2 * leniv) (hhex : ∀ c ∈ value, c ∈ lowerHexDigits)
    (hiv : leniv ≤ iv.length) :
    (eiGetIV env eifp iv leniv).r = 0 ∧
    ∀ k, k < leniv → (eiGetIV env eifp iv leniv).iv.getD k 0
      = 16 * hexDigitValue (value.getD (2 * k) '0')
        + hexDigitValue (value.getD (2 * k + 1) '0') := by
  rw [eiGetIV_of_record env eifp iv leniv value rest hrec (by omega)]
  obtain ⟨h1, _, h3, _⟩ := ivLoop_pairs leniv value 0 0 iv hlen hhex rfl (by omega)
  refine ⟨h1, fun k hk => ?_⟩
  have := h3 k hk
  rwa [Nat.zero_add] at this

/-- C3, witness: `leniv = 8` and the record `IV:0102030405060708` give the bytes
`01 02 03 04 05 06 07 08`. -/
theorem eiGetIV_decodes_witness :
    (eiGetIV upstreamEnv "IV:0102030405060708\n".toList (List.replicate 8 0) 8).r = 0 ∧
    (∀ k, k < 8 →
      (eiGetIV upstreamEnv "IV:0102030405060708\n".toList (List.replicate 8 0) 8).iv.getD k 0
        = 16 * hexDigitValue ("0102030405060708".toList.getD (2 * k) '0')
          + hexDigitValue ("0102030405060708".toList.getD (2 * k + 1) '0')) ∧
    (eiGetIV upstreamEnv "IV:0102030405060708\n".toList (List.replicate 8 0) 8).iv
      = [1, 2, 3, 4, 5, 6, 7, 8] :=
  ⟨(eiGetIV_decodes upstreamEnv "IV:0102030405060708\n".toList (List.replicate 8 0) 8
      "0102030405060708".toList [] (by decide) (by decide) (by decide) (by decide)).1,
   (eiGetIV_decodes upstreamEnv "IV:0102030405060708\n".toList (List.replicate 8 0) 8
      "0102030405060708".toList [] (by decide) (by decide) (by decide) (by decide)).2,
   by decide⟩

/-- C3, counterexample: the record `IV:0A` carries a value of `2 * 1` hexadecimal digits, and
`eiGetIV` with `leniv = 1` returns 1 on it instead of 0. -/
theorem eiGetIV_upper_digit_counterexample :
    eiGetRecord upstreamEnv "IV:0A\n".toList = ⟨0, [], ['I', 'V'], ['0', 'A']⟩ ∧
    ['0', 'A'].length = 2 * 1 ∧
    (eiGetIV upstreamEnv "IV:0A\n".toList [0] 1).r = 1 := by
  decide

/-- An `IV` record whose value has `2 * leniv + 1` lower-case hexadecimal digits passes the
length check `valueLen/2 != leniv` and is read with result 0. -/
theorem eiGetIV_odd_length (env : Env) (eifp : List Char) (iv : List Nat) (leniv : Nat)
    (value rest : List Char) (hrec : eiGetRecord env eifp = ⟨0, rest, ['I', 'V'], value⟩)
    (hlen : value.length = 2 * leniv + 1) (hhex : ∀ c ∈ value, c ∈ lowerHexDigits) :
    (eiGetIV env eifp iv leniv).r = 0 := by
  rw [eiGetIV_of_record env eifp iv leniv value rest hrec (by omega)]
  rw [ivLoop_ok_iff]
  intro c hc
  rw [nibbleOf_lowerHex c (hhex c hc)]
  simp

/-- C4, the code at the failing input: the value of the record `IV:01020304050607080` has 17
characters, not `2 * 8`, and `eiGetIV` with `leniv = 8` returns 0 on it, after storing a ninth
byte behind the eight that were asked for. -/
theorem eiGetIV_odd_length_accepted :
    eiGetRecord upstreamEnv "IV:01020304050607080\n".toList
      = ⟨0, [], ['I', 'V'], "01020304050607080".toList⟩ ∧
    "01020304050607080".toList.length = 2 * 8 + 1 ∧
    eiGetIV upstreamEnv "IV:01020304050607080\n".toList (List.replicate 9 255) 8
      = ⟨0, [], [1, 2, 3, 4, 5, 6, 7, 8, 0]⟩ := by
  decide

/-- C5, as amended: `eiGetIV` decodes lower-case hexadecimal only.  For every value of length
`2 * leniv` over the characters `0-9`, `a-f`, `A-F` in an `IV` record, `eiGetIV` returns 0 if
and only if no character of the value is an upper-case digit `A`..`F`; a value with an
upper-case digit gets a non-zero result. -/
theorem eiGetIV_lowercase_only (env : Env) (eifp : List Char) (iv : List Nat) (leniv : Nat)
    (value rest : List Char) (hrec : eiGetRecord env eifp = ⟨0, rest, ['I', 'V'], value⟩)
    (hlen : value.length = 2 * leniv)
    (hhex : ∀ c ∈ value, c ∈ lowerHexDigits ∨ c ∈ upperHexLetters) :
    (eiGetIV env eifp iv leniv).r = 0 ↔ ∀ c ∈ value, c ∉ upperHexLetters := by
  rw [eiGetIV_of_record env eifp iv leniv value rest hrec (by omega)]
  rw [ivLoop_ok_iff]
  constructor
  · intro h c hc hup
    exact h c hc (upperHex_invalid c hup)
  · intro h c hc
    rcases hhex c hc with hl | hu
    · rw [nibbleOf_lowerHex c hl]; simp
    · exact absurd hu (h c hc)

/-- C5, witness: the record `IV:0a0B` with `leniv = 2` is rejected for its upper-case `B`, the
record `IV:0a0b` gives the bytes `0a 0b`. -/
theorem eiGetIV_lowercase_only_witness :
    ((eiGetIV upstreamEnv "IV:0a0B\n".toList [0, 0] 2).r = 0
      ↔ ∀ c ∈ "0a0B".toList, c ∉ upperHexLetters) ∧
    (eiGetIV upstreamEnv "IV:0a0B\n".toList [0, 0] 2).r = 1 ∧
    (eiGetIV upstreamEnv "IV:0a0b\n".toList [0, 0] 2) = ⟨0, [], [10, 11]⟩ :=
  ⟨eiGetIV_lowercase_only upstreamEnv "IV:0a0B\n".toList [0, 0] 2 "0a0B".toList []
      (by decide) (by decide) (by decide),
   by decide, by decide⟩

/-- C5, counterexample: the value `AB` is of length `2 * 1` over `0-9a-fA-F`; `eiGetIV` does
not succeed on the record `IV:AB`, while it succeeds on the lower-cased record `IV:ab` with the
byte `0xab`. -/
theorem eiGetIV_case_counterexample :
    (∀ c ∈ ['A', 'B'], c ∈ lowerHexDigits ∨ c ∈ upperHexLetters) ∧
    (eiGetIV upstreamEnv "IV:AB\n".toList [0] 1).r ≠ 0 ∧
    eiGetIV upstreamEnv "IV:ab\n".toList [0] 1 = ⟨0, [], [0xab]⟩ := by
  decide

/-! ## eiGetEND: the end offset of a segment -/

theorem base10_cons (c : Char) (cs : List Char) :
    base10 (c :: cs) = (c.toNat - '0'.toNat) * 10 ^ cs.length + base10 cs := by
  simp [base10, Nat.ofDigits_append, Nat.mul_comm, Nat.add_comm]

/-- The digit loop of `atoll` on a string of digits computes its base-10 value. -/
theorem atollDigits_digits (s : List Char) :
    ∀ acc, (∀ c ∈ s, isdigit c = true) →
      atollDigits s acc = acc * 10 ^ s.length + base10 s := by
  induction s with
  | nil => intro acc _; simp [atollDigits, base10]
  | cons c cs ih =>
    intro acc h
    have hc : isdigit c = true := h c (by simp)
    rw [atollDigits, if_pos hc, ih _ (fun x hx => h x (by simp [hx])), base10_cons]
    simp only [List.length_cons]
    ring

theorem isdigit_not_space (c : Char) (h : isdigit c = true) :
    isspace c = false ∧ c ≠ '-' ∧ c ≠ '+' := by
  simp only [isdigit, decide_eq_true_eq] at h
  refine ⟨?_, ?_, ?_⟩
  · simp only [isspace, Bool.or_eq_false_iff, decide_eq_false_iff_not]
    refine ⟨⟨⟨⟨⟨?_, ?_⟩, ?_⟩, ?_⟩, ?_⟩, ?_⟩ <;>
    · intro hc
      subst hc
      revert h
      decide
  · intro hc
    subst hc
    revert h
    decide
  · intro hc
    subst hc
    revert h
    decide

theorem atollDigits_no_digit (t : List Char) (h : startsWithDigit t = false) :
    atollDigits t 0 = 0 := by
  cases t with
  | nil => rfl
  | cons c cs =>
    have hc : isdigit c = false := by simpa [startsWithDigit] using h
    simp [atollDigits, hc]

/-- Function `atoll` on a string of digits whose value fits `long long`. -/
theorem atoll_digits (s : List Char) (hd : ∀ c ∈ s, isdigit c = true)
    (hfit : base10 s < 2 ^ 63) : atoll s = (base10 s : Int) := by
  have hdrop : s.dropWhile isspace = s := by
    cases s with
    | nil => rfl
    | cons c cs =>
      have := (isdigit_not_space c (hd c (by simp))).1
      simp [List.dropWhile, this]
  have hv : atollDigits s 0 = base10 s := by
    rw [atollDigits_digits s 0 hd]; simp
  have hb : (base10 s : Int) < 2 ^ 63 := by exact_mod_cast hfit
  have hs : atollSigned s = (base10 s : Int) := by
    unfold atollSigned
    split
    · exact absurd rfl (isdigit_not_space '-' (hd '-' (by simp))).2.1
    · exact absurd rfl (isdigit_not_space '+' (hd '+' (by simp))).2.2
    · rw [hv]
  unfold atoll
  rw [hdrop, hs]
  omega

/-- Function `atoll` gives 0 on a string that does not begin with an integer. -/
theorem atoll_no_integer (s : List Char) (h : beginsWithInteger s = false) : atoll s = 0 := by
  unfold beginsWithInteger at h
  have hs : atollSigned (s.dropWhile isspace) = 0 := by
    generalize s.dropWhile isspace = s1 at h
    unfold signedStartsWithDigit at h
    unfold atollSigned
    split at h
    · simp [atollDigits_no_digit _ h]
    · simp [atollDigits_no_digit _ h]
    · simp [atollDigits_no_digit _ h]
  unfold atoll
  rw [hs]
  decide

/-- C9, as amended: for every record with tag `END`, `eiGetEND` returns 0 and sets the offset
to the base-10 value of the value field when the field is a string of decimal digits whose
value fits the signed 64-bit offset type `off64_t` (it is below `2^63`), and to 0 when the field
does not begin with an integer (an empty or alphabetic field, say); when no record is read or
its tag is not `END`, it returns non-zero and leaves the offset unchanged. -/
theorem eiGetEND_spec (env : Env) (eifp : List Char) (offs : Int) :
    (∀ value rest, eiGetRecord env eifp = ⟨0, rest, ['E', 'N', 'D'], value⟩ →
      (eiGetEND env eifp offs).r = 0 ∧
      ((∀ c ∈ value, isdigit c = true) → base10 value < 2 ^ 63 →
        (eiGetEND env eifp offs).offs = (base10 value : Int)) ∧
      (beginsWithInteger value = false → (eiGetEND env eifp offs).offs = 0)) ∧
    ((eiGetRecord env eifp).r ≠ 0 ∨ (eiGetRecord env eifp).rectype ≠ ['E', 'N', 'D'] →
      (eiGetEND env eifp offs).r ≠ 0 ∧ (eiGetEND env eifp offs).offs = offs) := by
  constructor
  · intro value rest hrec
    have he : eiGetEND env eifp offs = ⟨0, rest, atoll value⟩ := by
      simp [eiGetEND, hrec]
    rw [he]
    exact ⟨rfl, fun hd hfit => atoll_digits value hd hfit, fun h => atoll_no_integer value h⟩
  · intro h
    unfold eiGetEND
    by_cases hr : (eiGetRecord env eifp).r = 0
    · have ht : (eiGetRecord env eifp).rectype ≠ ['E', 'N', 'D'] := by
        rcases h with h | h
        · exact absurd hr h
        · exact h
      simp [hr, ht]
    · simp [hr]

/-- C9, witness: the records `END:250`, `END:` and `END:abc` give the offsets 250, 0 and 0;
the record `IV:0102` is refused and the offset stays 100. -/
theorem eiGetEND_spec_witness :
    ((eiGetEND upstreamEnv "END:250\n".toList 100).r = 0 ∧
      ((∀ c ∈ "250".toList, isdigit c = true) → base10 "250".toList < 2 ^ 63 →
        (eiGetEND upstreamEnv "END:250\n".toList 100).offs = (base10 "250".toList : Int)) ∧
      (beginsWithInteger "250".toList = false →
        (eiGetEND upstreamEnv "END:250\n".toList 100).offs = 0)) ∧
    eiGetEND upstreamEnv "END:250\n".toList 100 = ⟨0, [], 250⟩ ∧
    eiGetEND upstreamEnv "END:\n".toList 100 = ⟨0, [], 0⟩ ∧
    eiGetEND upstreamEnv "END:abc\n".toList 100 = ⟨0, [], 0⟩ ∧
    ((eiGetEND upstreamEnv "IV:0102\n".toList 100).r ≠ 0 ∧
      (eiGetEND upstreamEnv "IV:0102\n".toList 100).offs = 100) :=
  ⟨(eiGetEND_spec upstreamEnv "END:250\n".toList 100).1 "250".toList [] (by decide),
   by decide, by decide, by decide,
   (eiGetEND_spec upstreamEnv "IV:0102\n".toList 100).2 (Or.inr (by decide))⟩

/-- C9, counterexample: the value of the record `END:9223372036854775808` is a string of
decimal digits whose value, `2^63`, fits in 64 bits; `eiGetEND` returns 0 and stores
`2^63 - 1`, the largest `off64_t`, not the base-10 value. -/
theorem eiGetEND_unsigned_counterexample :
    (∀ c ∈ "9223372036854775808".toList, isdigit c = true) ∧
    base10 "9223372036854775808".toList = 2 ^ 63 ∧
    (2 : Nat) ^ 63 < 2 ^ 64 ∧
    eiGetEND upstreamEnv "END:9223372036854775808\n".toList 100 = ⟨0, [], 2 ^ 63 - 1⟩ ∧
    ((2 : Int) ^ 63 - 1 ≠ 2 ^ 63) := by
  decide

/-! ## decryptBlock: one segment -/

/-- C10, as amended: a segment with nothing left is a no-op: for every ciphertext stream and
`blkEnd` equal to `*pCurrOffs`, `decryptBlock` consumes no ciphertext byte, writes no output
byte and leaves the running offset unchanged.  For the END offsets 100, 250, 250 on 250 bytes
of ciphertext with block length 8, the third segment starts at the running offset 248 and
produces no output byte. -/
theorem decryptBlock_empty_segment {σ : Type} (g : Gcry σ) (st : DecState σ) :
    ((decryptBlock g st st.currOffs).fpin = st.fpin ∧
      (decryptBlock g st st.currOffs).fpout = st.fpout ∧
      (decryptBlock g st st.currOffs).currOffs = st.currOffs) ∧
    ((doDecrypt idGcry upstreamEnv (List.replicate 250 1)
        "IV:0102030405060708\nEND:100\nIV:0102030405060708\nEND:250\n".toList
        ⟨[], 1000⟩ (List.replicate 24 'k') ⟨(), 0⟩ 0 0).st.currOffs = 248 ∧
      (doDecrypt idGcry upstreamEnv (List.replicate 250 1)
        ("IV:0102030405060708\nEND:100\nIV:0102030405060708\nEND:250\n".toList
          ++ "IV:0102030405060708\nEND:250\n".toList)
        ⟨[], 1000⟩ (List.replicate 24 'k') ⟨(), 0⟩ 0 0).st.fpout
      = (doDecrypt idGcry upstreamEnv (List.replicate 250 1)
        "IV:0102030405060708\nEND:100\nIV:0102030405060708\nEND:250\n".toList
        ⟨[], 1000⟩ (List.replicate 24 'k') ⟨(), 0⟩ 0 0).st.fpout) := by
  have h : decryptBlock g st st.currOffs = st := by
    simp [decryptBlock, decryptBlockLoop, fread]
  rw [h]
  refine ⟨⟨rfl, rfl, rfl⟩, ?_⟩
  set_option maxRecDepth 100000 in decide

/-- C10, counterexample: with `blkEnd = 0` below the running offset 8, `decryptBlock` reads
the eight bytes of the ciphertext stream, writes eight bytes and moves the running offset
to 16. -/
theorem decryptBlock_negative_counterexample :
    (0 : Int) ≤ 8 ∧
    (decryptBlock idGcry ⟨[1, 2, 3, 4, 5, 6, 7, 8], ⟨[], 100⟩, 8, ⟨(), 8⟩⟩ 0).fpin = [] ∧
    (decryptBlock idGcry ⟨[1, 2, 3, 4, 5, 6, 7, 8], ⟨[], 100⟩, 8, ⟨(), 8⟩⟩ 0).fpout
      = ⟨[1, 2, 3, 4, 5, 6, 7, 8], 92⟩ ∧
    (decryptBlock idGcry ⟨[1, 2, 3, 4, 5, 6, 7, 8], ⟨[], 100⟩, 8, ⟨(), 8⟩⟩ 0).currOffs = 16 := by
  decide

/-! ## decryptBlock: read sizes and the running offset -/

/-- One iteration of the loop of `decryptBlock`, with the read size written as `readSize`. -/
theorem decryptBlockLoop_succ {σ : Type} (g : Gcry σ) (fuel : Nat) (st : DecState σ)
    (left : Nat) :
    decryptBlockLoop g (fuel + 1) st left =
      if (fread (readSize st.globals.blkLength left) st.fpin).1.length = 0 then st
      else
        match g.decrypt st.globals.gcry_chd
            (fread (readSize st.globals.blkLength left) st.fpin).1 with
        | none =>
          ⟨(fread (readSize st.globals.blkLength left) st.fpin).2, st.fpout,
            st.currOffs + (fread (readSize st.globals.blkLength left) st.fpin).1.length,
            st.globals⟩
        | some (chd, buf) =>
          if (fwrite st.fpout
                ((removePadding buf
                    (fread (readSize st.globals.blkLength left) st.fpin).1.length).1.take
                  (removePadding buf
                    (fread (readSize st.globals.blkLength left) st.fpin).1.length).2)).2
              ≠ (removePadding buf
                  (fread (readSize st.globals.blkLength left) st.fpin).1.length).2 then
            ⟨(fread (readSize st.globals.blkLength left) st.fpin).2,
              (fwrite st.fpout
                ((removePadding buf
                    (fread (readSize st.globals.blkLength left) st.fpin).1.length).1.take
                  (removePadding buf
                    (fread (readSize st.globals.blkLength left) st.fpin).1.length).2)).1,
              st.currOffs + (fread (readSize st.globals.blkLength left) st.fpin).1.length,
              ⟨chd, st.globals.blkLength⟩⟩
          else
            decryptBlockLoop g fuel
              ⟨(fread (readSize st.globals.blkLength left) st.fpin).2,
                (fwrite st.fpout
                  ((removePadding buf
                      (fread (readSize st.globals.blkLength left) st.fpin).1.length).1.take
                    (removePadding buf
                      (fread (readSize st.globals.blkLength left) st.fpin).1.length).2)).1,
                st.currOffs + (fread (readSize st.globals.blkLength left) st.fpin).1.length,
                ⟨chd, st.globals.blkLength⟩⟩
              (left - (fread (readSize st.globals.blkLength left) st.fpin).1.length) := by
  rfl

/-- The read size is at most what is left of the segment. -/
theorem readSize_le (b left : Nat) : readSize b left ≤ left := by
  unfold readSize
  split <;> omega

/-- C18: for every `blkLength > 0` and every `leftTillBlkEnd`, the read size `toRead` of
`decryptBlock` is the largest multiple of `blkLength` that is at most
`min(65536, leftTillBlkEnd)`: `blkLength` divides it, it does not exceed `leftTillBlkEnd`, and
it is 0 exactly when `min(65536, leftTillBlkEnd) < blkLength`. -/
theorem readSize_spec (blkLength leftTillBlkEnd : Nat) (hblk : 0 < blkLength) :
    blkLength ∣ readSize blkLength leftTillBlkEnd ∧
    readSize blkLength leftTillBlkEnd ≤ min 65536 leftTillBlkEnd ∧
    (∀ m, blkLength ∣ m → m ≤ min 65536 leftTillBlkEnd →
      m ≤ readSize blkLength leftTillBlkEnd) ∧
    readSize blkLength leftTillBlkEnd ≤ leftTillBlkEnd ∧
    (readSize blkLength leftTillBlkEnd = 0 ↔ min 65536 leftTillBlkEnd < blkLength) := by
  have hmin : (if 65536 ≤ leftTillBlkEnd then 65536 else leftTillBlkEnd)
      = min 65536 leftTillBlkEnd := by
    split <;> omega
  unfold readSize
  rw [hmin]
  have h4 : min 65536 leftTillBlkEnd - min 65536 leftTillBlkEnd % blkLength
      ≤ leftTillBlkEnd := le_trans (Nat.sub_le _ _) (Nat.min_le_right _ _)
  generalize min 65536 leftTillBlkEnd = t at h4 ⊢
  have hdm := Nat.div_add_mod t blkLength
  have hlt := Nat.mod_lt t hblk
  have heq : t - t % blkLength = blkLength * (t / blkLength) := by omega
  refine ⟨?_, by omega, ?_, h4, ?_⟩
  · rw [heq]; exact Dvd.intro _ rfl
  · intro m hm hle
    obtain ⟨k, rfl⟩ := hm
    rw [heq]
    apply Nat.mul_le_mul_left
    exact (Nat.le_div_iff_mul_le hblk).2 (by rw [Nat.mul_comm]; exact hle)
  · constructor
    · intro h0
      have : t / blkLength = 0 := by
        rw [heq] at h0
        rcases Nat.mul_eq_zero.1 h0 with h | h
        · omega
        · exact h
      rw [this] at hdm
      omega
    · intro hlt2
      rw [Nat.mod_eq_of_lt hlt2]
      omega

/-- C18, witness: block length 8 and 100 bytes left give the read size 96; with 5 bytes left
the read size is 0. -/
theorem readSize_spec_witness :
    (8 ∣ readSize 8 100 ∧
      readSize 8 100 ≤ min 65536 100 ∧
      (∀ m, 8 ∣ m → m ≤ min 65536 100 → m ≤ readSize 8 100) ∧
      readSize 8 100 ≤ 100 ∧
      (readSize 8 100 = 0 ↔ min 65536 100 < 8)) ∧
    readSize 8 100 = 96 ∧ readSize 8 5 = 0 ∧ readSize 8 1000000 = 65536 :=
  ⟨readSize_spec 8 100 (by decide), by decide, by decide, by decide⟩

/-- Invariant of the loop of `decryptBlock`, for every number of iterations: the bytes read
are a leading part of the ciphertext stream, no more than `leftTillBlkEnd`, and the running
offset has grown by their number. -/
theorem decryptBlockLoop_read {σ : Type} (g : Gcry σ) :
    ∀ (fuel : Nat) (st : DecState σ) (left : Nat),
      ∃ n, n ≤ left ∧ n ≤ st.fpin.length ∧
        (decryptBlockLoop g fuel st left).fpin = st.fpin.drop n ∧
        (decryptBlockLoop g fuel st left).currOffs = st.currOffs + (n : Int) := by
  intro fuel
  induction fuel with
  | zero =>
    intro st left
    exact ⟨0, by omega, by omega, by simp [decryptBlockLoop], by simp [decryptBlockLoop]⟩
  | succ fuel ih =>
    intro st left
    rw [decryptBlockLoop_succ]
    have hrs := readSize_le st.globals.blkLength left
    have hlen : (fread (readSize st.globals.blkLength left) st.fpin).1.length
        ≤ readSize st.globals.blkLength left := by
      simp [fread, List.length_take]
    have hlen2 : (fread (readSize st.globals.blkLength left) st.fpin).1.length
        ≤ st.fpin.length := by
      simp [fread, List.length_take]
    have hrest : (fread (readSize st.globals.blkLength left) st.fpin).2
        = st.fpin.drop (fread (readSize st.globals.blkLength left) st.fpin).1.length := by
      simp only [fread, List.length_take]
      by_cases h : readSize st.globals.blkLength left ≤ st.fpin.length
      · rw [Nat.min_eq_left h]
      · rw [Nat.min_eq_right (by omega), List.drop_of_length_le (by omega),
          List.drop_of_length_le (by omega)]
    generalize (fread (readSize st.globals.blkLength left) st.fpin).1.length = nRead
      at hlen hlen2 hrest
    by_cases h0 : nRead = 0
    · rw [if_pos h0]
      exact ⟨0, by omega, by omega, by simp, by simp⟩
    · rw [if_neg h0]
      cases hd : g.decrypt st.globals.gcry_chd
          (fread (readSize st.globals.blkLength left) st.fpin).1 with
      | none =>
        exact ⟨nRead, by omega, hlen2, hrest, rfl⟩
      | some p =>
        obtain ⟨chd, buf⟩ := p
        simp only []
        split
        · exact ⟨nRead, by omega, hlen2, hrest, rfl⟩
        · obtain ⟨n, h1, h2, h3, h4⟩ := ih
            ⟨(fread (readSize st.globals.blkLength left) st.fpin).2,
              (fwrite st.fpout ((removePadding buf nRead).1.take
                (removePadding buf nRead).2)).1,
              st.currOffs + nRead, ⟨chd, st.globals.blkLength⟩⟩ (left - nRead)
          refine ⟨nRead + n, by omega, ?_, ?_, ?_⟩
          · simp only [hrest, List.length_drop] at h2
            omega
          · rw [h3]
            simp only [hrest, List.drop_drop]
          · rw [h4]
            push_cast
            ring

/-- C11: running-offset accounting.  For every call of `decryptBlock` with `blkLength > 0`
and `blkEnd >= *pCurrOffs`, after any number of loop iterations and on return, the stream is
the entry stream without the bytes read so far, `*pCurrOffs` is its entry value plus the number
of ciphertext bytes read so far, and `*pCurrOffs` does not exceed `blkEnd`. -/
theorem decryptBlock_offset_accounting {σ : Type} (g : Gcry σ) (st : DecState σ)
    (blkEnd : Int) (hblk : 0 < st.globals.blkLength) (hle : st.currOffs ≤ blkEnd) :
    (∀ fuel,
      (decryptBlockLoop g fuel st ((blkEnd - st.currOffs) % 2 ^ 64).toNat).fpin
        = st.fpin.drop (st.fpin.length
            - (decryptBlockLoop g fuel st ((blkEnd - st.currOffs) % 2 ^ 64).toNat).fpin.length) ∧
      (decryptBlockLoop g fuel st ((blkEnd - st.currOffs) % 2 ^ 64).toNat).currOffs
        = st.currOffs + ((st.fpin.length
            - (decryptBlockLoop g fuel st
                ((blkEnd - st.currOffs) % 2 ^ 64).toNat).fpin.length : Nat) : Int) ∧
      (decryptBlockLoop g fuel st ((blkEnd - st.currOffs) % 2 ^ 64).toNat).currOffs
        ≤ blkEnd) ∧
    (decryptBlock g st blkEnd).fpin
      = st.fpin.drop (st.fpin.length - (decryptBlock g st blkEnd).fpin.length) ∧
    (decryptBlock g st blkEnd).currOffs
      = st.currOffs + ((st.fpin.length - (decryptBlock g st blkEnd).fpin.length : Nat) : Int) ∧
    (decryptBlock g st blkEnd).currOffs ≤ blkEnd := by
  have _ := hblk
  have hleft : (((blkEnd - st.currOffs) % 2 ^ 64).toNat : Int) ≤ blkEnd - st.currOffs := by
    have h1 : (0 : Int) ≤ (blkEnd - st.currOffs) % 2 ^ 64 :=
      Int.emod_nonneg _ (by norm_num)
    rw [Int.toNat_of_nonneg h1]
    omega
  have hall : ∀ fuel,
      (decryptBlockLoop g fuel st ((blkEnd - st.currOffs) % 2 ^ 64).toNat).fpin
        = st.fpin.drop (st.fpin.length
            - (decryptBlockLoop g fuel st ((blkEnd - st.currOffs) % 2 ^ 64).toNat).fpin.length) ∧
      (decryptBlockLoop g fuel st ((blkEnd - st.currOffs) % 2 ^ 64).toNat).currOffs
        = st.currOffs + ((st.fpin.length
            - (decryptBlockLoop g fuel st
                ((blkEnd - st.currOffs) % 2 ^ 64).toNat).fpin.length : Nat) : Int) ∧
      (decryptBlockLoop g fuel st ((blkEnd - st.currOffs) % 2 ^ 64).toNat).currOffs
        ≤ blkEnd := by
    intro fuel
    obtain ⟨n, h1, h2, h3, h4⟩ :=
      decryptBlockLoop_read g fuel st ((blkEnd - st.currOffs) % 2 ^ 64).toNat
    have hn : st.fpin.length - (st.fpin.drop n).length = n := by
      rw [List.length_drop]; omega
    rw [h3, h4, hn]
    refine ⟨rfl, rfl, ?_⟩
    have : (n : Int) ≤ (((blkEnd - st.currOffs) % 2 ^ 64).toNat : Int) := by exact_mod_cast h1
    omega
  exact ⟨hall, hall (st.fpin.length + 1)⟩

/-- C11, witness: 20 bytes of ciphertext, running offset 0, `blkEnd = 100`, block length 8:
the 20 bytes are read and the running offset is 20. -/
theorem decryptBlock_offset_accounting_witness :
    ((decryptBlock idGcry ⟨List.replicate 20 7, ⟨[], 100⟩, 0, ⟨(), 8⟩⟩ 100).fpin
      = (List.replicate 20 7).drop ((List.replicate 20 7).length
          - (decryptBlock idGcry ⟨List.replicate 20 7, ⟨[], 100⟩, 0, ⟨(), 8⟩⟩
              100).fpin.length) ∧
      (decryptBlock idGcry ⟨List.replicate 20 7, ⟨[], 100⟩, 0, ⟨(), 8⟩⟩ 100).currOffs
        = 0 + (((List.replicate 20 7).length
            - (decryptBlock idGcry ⟨List.replicate 20 7, ⟨[], 100⟩, 0, ⟨(), 8⟩⟩
                100).fpin.length : Nat) : Int) ∧
      (decryptBlock idGcry ⟨List.replicate 20 7, ⟨[], 100⟩, 0, ⟨(), 8⟩⟩ 100).currOffs
        ≤ 100) ∧
    (decryptBlock idGcry ⟨List.replicate 20 7, ⟨[], 100⟩, 0, ⟨(), 8⟩⟩ 100).currOffs = 20 :=
  ⟨(decryptBlock_offset_accounting idGcry ⟨List.replicate 20 7, ⟨[], 100⟩, 0, ⟨(), 8⟩⟩ 100
      (by decide) (by decide)).2,
   by decide⟩

/-- C12, the code at the failing input: the ciphertext stream ends after 12 bytes, in the
middle of the second block of 8, with `blkEnd = 16`; the one call of `gcry_cipher_decrypt` gets
the length 12, which is not a multiple of 8. -/
theorem decryptBlock_unaligned_length :
    (decryptBlock lenLogGcry ⟨List.replicate 12 7, ⟨[], 100⟩, 0, ⟨[], 8⟩⟩ 16).globals.gcry_chd
      = [12] ∧
    readSize 8 16 = 16 ∧ ¬ (8 ∣ 12) := by
  decide

/-! ## doDecrypt: the loop over the segments -/

/-- Function `fgets` with room for at least one character takes at least one character. -/
theorem fgetsLine_consumes (n : Nat) (s : List Char) (hn : 0 < n) (hs : s ≠ []) :
    (fgetsLine n s).2.length < s.length := by
  induction s generalizing n with
  | nil => exact absurd rfl hs
  | cons c cs ih =>
    cases n with
    | zero => omega
    | succ n =>
      by_cases hc : c = '\n'
      · simp [fgetsLine, hc]
      · simp only [fgetsLine, if_neg hc, List.length_cons]
        cases n with
        | zero => simp [fgetsLine]
        | succ n =>
          cases cs with
          | nil => simp [fgetsLine]
          | cons d ds =>
            have := ih (n + 1) (by omega) (by simp)
            omega

/-- A record read with result 0 takes at least one character from the stream. -/
theorem eiGetRecord_consumes (env : Env) (eifp : List Char)
    (h : (eiGetRecord env eifp).r = 0) :
    (eiGetRecord env eifp).eifp.length < eifp.length := by
  cases eifp with
  | nil => simp [eiGetRecord, fgets] at h
  | cons c cs =>
    have hlt := fgetsLine_consumes
      (env.EIF_MAX_RECTYPE_LEN + env.EIF_MAX_VALUE_LEN + 128 - 1) (c :: cs) (by omega)
      (by simp)
    simp only [eiGetRecord, fgets]
    split <;> first | exact hlt | (split <;> exact hlt)

/-- A successful `eiGetIV` takes at least one character from the stream. -/
theorem eiGetIV_consumes (env : Env) (eifp : List Char) (iv : List Nat) (leniv : Nat)
    (h : (eiGetIV env eifp iv leniv).r = 0) :
    (eiGetIV env eifp iv leniv).eifp.length < eifp.length := by
  unfold eiGetIV at h ⊢
  by_cases hr : (eiGetRecord env eifp).r = 0
  · have := eiGetRecord_consumes env eifp hr
    simp only [hr, ne_eq, not_true_eq_false, if_false] at h ⊢
    split <;> first | exact this | (split <;> exact this)
  · simp [hr] at h

/-- A successful `eiGetEND` takes at least one character from the stream. -/
theorem eiGetEND_consumes (env : Env) (eifp : List Char) (offs : Int)
    (h : (eiGetEND env eifp offs).r = 0) :
    (eiGetEND env eifp offs).eifp.length < eifp.length := by
  unfold eiGetEND at h ⊢
  by_cases hr : (eiGetRecord env eifp).r = 0
  · have := eiGetRecord_consumes env eifp hr
    simp only [hr, ne_eq, not_true_eq_false, if_false] at h ⊢
    split <;> exact this
  · simp [hr] at h

/-- A successful `initCrypt` takes at least one character from the stream. -/
theorem initCrypt_consumes {σ : Type} (g : Gcry σ) (env : Env) (eifp key : List Char)
    (gl : Globals σ) (h : (initCrypt g env eifp key gl).r = 0) :
    (initCrypt g env eifp key gl).eifp.length < eifp.length := by
  unfold initCrypt at h ⊢
  generalize List.replicate 4096 0 = iv0 at h ⊢
  by_cases hb : g.blklen > 4096
  · simp [hb] at h
  · simp only [hb, if_false] at h ⊢
    by_cases hr : (eiGetIV env eifp iv0 g.blklen).r = 0
    · have := eiGetIV_consumes env eifp iv0 g.blklen hr
      simp only [hr, ne_eq, not_true_eq_false, if_false] at h ⊢
      split
      · exact this
      · split
        · exact this
        · split
          · exact this
          · split <;> exact this
    · simp [hr] at h

/-- One iteration of the loop of `doDecrypt`. -/
theorem doDecryptLoop_succ {σ : Type} (g : Gcry σ) (env : Env) (key : List Char) (fuel : Nat)
    (eifp : List Char) (st : DecState σ) (r blkEnd : Int) :
    doDecryptLoop g env key (fuel + 1) eifp st r blkEnd =
      if (initCrypt g env eifp key st.globals).r ≠ 0 then
        ⟨r, (initCrypt g env eifp key st.globals).eifp,
          ⟨st.fpin, st.fpout, st.currOffs, (initCrypt g env eifp key st.globals).globals⟩⟩
      else if (eiGetEND env (initCrypt g env eifp key st.globals).eifp blkEnd).r ≠ 0 then
        ⟨(eiGetEND env (initCrypt g env eifp key st.globals).eifp blkEnd).r,
          (eiGetEND env (initCrypt g env eifp key st.globals).eifp blkEnd).eifp,
          ⟨st.fpin, st.fpout, st.currOffs, (initCrypt g env eifp key st.globals).globals⟩⟩
      else
        doDecryptLoop g env key fuel
          (eiGetEND env (initCrypt g env eifp key st.globals).eifp blkEnd).eifp
          (decryptBlock g
            ⟨st.fpin, st.fpout, st.currOffs, (initCrypt g env eifp key st.globals).globals⟩
            (eiGetEND env (initCrypt g env eifp key st.globals).eifp blkEnd).offs)
          (eiGetEND env (initCrypt g env eifp key st.globals).eifp blkEnd).r
          (eiGetEND env (initCrypt g env eifp key st.globals).eifp blkEnd).offs := by
  rfl

/-- The loop of `doDecrypt` does not run out of iterations: with more iterations allowed than
the metadata stream has characters, the result does not depend on their number. -/
theorem doDecryptLoop_fuel {σ : Type} (g : Gcry σ) (env : Env) (key : List Char) :
    ∀ (fuel fuel2 : Nat) (eifp : List Char) (st : DecState σ) (r blkEnd : Int),
      eifp.length < fuel → eifp.length < fuel2 →
      doDecryptLoop g env key fuel eifp st r blkEnd
        = doDecryptLoop g env key fuel2 eifp st r blkEnd := by
  intro fuel
  induction fuel with
  | zero => intro fuel2 eifp st r blkEnd h; omega
  | succ fuel ih =>
    intro fuel2 eifp st r blkEnd h1 h2
    cases fuel2 with
    | zero => omega
    | succ fuel2 =>
      rw [doDecryptLoop_succ, doDecryptLoop_succ]
      by_cases hi : (initCrypt g env eifp key st.globals).r = 0
      · have hc1 := initCrypt_consumes g env eifp key st.globals hi
        by_cases he : (eiGetEND env (initCrypt g env eifp key st.globals).eifp blkEnd).r = 0
        · have hc2 := eiGetEND_consumes env _ blkEnd he
          simp only [hi, he, ne_eq, not_true_eq_false, if_false]
          exact ih fuel2 _ _ _ _ (by omega) (by omega)
        · simp only [hi, he, ne_eq, not_true_eq_false, not_false_eq_true, if_false, if_true]
      · simp only [hi, ne_eq, not_false_eq_true, if_true]

/-- A segment whose `IV` and `END` records are read with result 0 is passed to `decryptBlock`,
and `doDecrypt` goes on behind it with `r = 0`, whatever `decryptBlock` did. -/
theorem doDecryptLoop_segment {σ : Type} (g : Gcry σ) (env : Env) (key : List Char)
    (fuel fuel2 : Nat) (eifp : List Char) (st : DecState σ) (r blkEnd : Int)
    (hi : (initCrypt g env eifp key st.globals).r = 0)
    (he : (eiGetEND env (initCrypt g env eifp key st.globals).eifp blkEnd).r = 0)
    (hf : eifp.length < fuel)
    (hf2 : (eiGetEND env (initCrypt g env eifp key st.globals).eifp blkEnd).eifp.length
      < fuel2) :
    doDecryptLoop g env key fuel eifp st r blkEnd =
      doDecryptLoop g env key fuel2
        (eiGetEND env (initCrypt g env eifp key st.globals).eifp blkEnd).eifp
        (decryptBlock g
          ⟨st.fpin, st.fpout, st.currOffs, (initCrypt g env eifp key st.globals).globals⟩
          (eiGetEND env (initCrypt g env eifp key st.globals).eifp blkEnd).offs)
        0
        (eiGetEND env (initCrypt g env eifp key st.globals).eifp blkEnd).offs := by
  cases fuel with
  | zero => omega
  | succ fuel =>
    have hc1 := initCrypt_consumes g env eifp key st.globals hi
    have hc2 := eiGetEND_consumes env _ blkEnd he
    rw [doDecryptLoop_succ]
    simp only [hi, he, ne_eq, not_true_eq_false, if_false]
    exact doDecryptLoop_fuel g env key fuel fuel2 _ _ _ _ (by omega) hf2

/-- With nothing left of the segment, `decryptBlock` changes nothing. -/
theorem decryptBlock_nothing_left {σ : Type} (g : Gcry σ) (st : DecState σ) :
    decryptBlock g st st.currOffs = st := by
  simp [decryptBlock, decryptBlockLoop, fread]

/-- C13, as amended: `doDecrypt` makes no test that the END offsets grow.  For every metadata
stream and every segment in it whose END offset equals the running offset accumulated by the
preceding segments, `doDecrypt` reads no ciphertext and writes no output for that segment,
leaves the running offset as it is, and goes on with the record behind the segment; it does not
return at that segment. -/
theorem doDecrypt_equal_offset_segment {σ : Type} (g : Gcry σ) (env : Env) (key : List Char)
    (fuel fuel2 : Nat) (eifp : List Char) (st : DecState σ) (r blkEnd : Int)
    (hi : (initCrypt g env eifp key st.globals).r = 0)
    (he : (eiGetEND env (initCrypt g env eifp key st.globals).eifp blkEnd).r = 0)
    (hoffs : (eiGetEND env (initCrypt g env eifp key st.globals).eifp blkEnd).offs
      = st.currOffs)
    (hf : eifp.length < fuel)
    (hf2 : (eiGetEND env (initCrypt g env eifp key st.globals).eifp blkEnd).eifp.length
      < fuel2) :
    doDecryptLoop g env key fuel eifp st r blkEnd =
      doDecryptLoop g env key fuel2
        (eiGetEND env (initCrypt g env eifp key st.globals).eifp blkEnd).eifp
        ⟨st.fpin, st.fpout, st.currOffs, (initCrypt g env eifp key st.globals).globals⟩
        0 st.currOffs := by
  rw [doDecryptLoop_segment g env key fuel fuel2 eifp st r blkEnd hi he hf hf2, hoffs]
  exact congrArg (fun s => doDecryptLoop g env key fuel2 _ s 0 st.currOffs)
    (decryptBlock_nothing_left g
      ⟨st.fpin, st.fpout, st.currOffs, (initCrypt g env eifp key st.globals).globals⟩)

/-- C13, witness: at running offset 8 the segment `IV:0102030405060708`, `END:8` is passed
over, and the run goes on with the end of the metadata stream. -/
theorem doDecrypt_equal_offset_segment_witness :
    doDecryptLoop idGcry upstreamEnv (List.replicate 24 'k') 27
        "IV:0102030405060708\nEND:8\n".toList
        ⟨[1, 2, 3, 4, 5, 6, 7, 8], ⟨[], 100⟩, 8, ⟨(), 8⟩⟩ 1 0
      = doDecryptLoop idGcry upstreamEnv (List.replicate 24 'k') 1 []
          ⟨[1, 2, 3, 4, 5, 6, 7, 8], ⟨[], 100⟩, 8, ⟨(), 8⟩⟩ 0 8 :=
  doDecrypt_equal_offset_segment idGcry upstreamEnv (List.replicate 24 'k') 27 1
    "IV:0102030405060708\nEND:8\n".toList ⟨[1, 2, 3, 4, 5, 6, 7, 8], ⟨[], 100⟩, 8, ⟨(), 8⟩⟩ 1 0
    (by decide) (by decide) (by decide) (by decide) (by decide)

/-- C13, counterexample: with the END offsets 8 and 8 the second segment does not exceed the
running offset 8, and `doDecrypt` returns 0; with the END offsets 8 and 0 it returns 0 as well,
after reading the eight bytes behind the first segment for the second one. -/
theorem doDecrypt_monotonic_counterexample :
    (doDecrypt idGcry upstreamEnv (List.replicate 16 7)
        "IV:0102030405060708\nEND:8\nIV:0102030405060708\nEND:8\n".toList
        ⟨[], 100⟩ (List.replicate 24 'k') ⟨(), 0⟩ 1 0).r = 0 ∧
    (doDecrypt idGcry upstreamEnv (List.replicate 16 7)
        "IV:0102030405060708\nEND:8\nIV:0102030405060708\nEND:0\n".toList
        ⟨[], 100⟩ (List.replicate 24 'k') ⟨(), 0⟩ 1 0).r = 0 ∧
    (doDecrypt idGcry upstreamEnv (List.replicate 16 7)
        "IV:0102030405060708\nEND:8\nIV:0102030405060708\nEND:0\n".toList
        ⟨[], 100⟩ (List.replicate 24 'k') ⟨(), 0⟩ 1 0).st.fpin = [] := by
  decide

/-- C14, the code at the failing input: behind one well-formed segment the metadata stream
holds a record that is not a valid `IV` record (a wrong tag, a character that is no hexadecimal
digit, a wrong length), and `doDecrypt`, entered with `r` holding 1, returns 0 each time; with
no segment before the record it returns what `r` held at entry. -/
theorem doDecrypt_iv_error_returns_zero :
    (doDecrypt idGcry upstreamEnv (List.replicate 16 7)
        "IV:0102030405060708\nEND:8\nEND:16\n".toList
        ⟨[], 100⟩ (List.replicate 24 'k') ⟨(), 0⟩ 1 0).r = 0 ∧
    (doDecrypt idGcry upstreamEnv (List.replicate 16 7)
        "IV:0102030405060708\nEND:8\nIV:01020304050607zz\n".toList
        ⟨[], 100⟩ (List.replicate 24 'k') ⟨(), 0⟩ 1 0).r = 0 ∧
    (doDecrypt idGcry upstreamEnv (List.replicate 16 7)
        "IV:0102030405060708\nEND:8\nIV:0102\n".toList
        ⟨[], 100⟩ (List.replicate 24 'k') ⟨(), 0⟩ 1 0).r = 0 ∧
    (doDecrypt idGcry upstreamEnv (List.replicate 16 7) "END:16\n".toList
        ⟨[], 100⟩ (List.replicate 24 'k') ⟨(), 0⟩ 0 0).r = 0 := by
  decide

/-- C15, the code at the failing input: on the empty metadata stream (no segment at all)
`doDecrypt` returns what the uninitialised `r` holds, 7 here, not 0; behind one segment the
end of the stream gives 0, and the end of the stream in place of the `END` record gives 1. -/
theorem doDecrypt_no_segment_returns_garbage :
    (doDecrypt idGcry upstreamEnv (List.replicate 16 7) []
        ⟨[], 100⟩ (List.replicate 24 'k') ⟨(), 0⟩ 7 0).r = 7 ∧
    (doDecrypt idGcry upstreamEnv (List.replicate 16 7) "IV:0102030405060708\nEND:8\n".toList
        ⟨[], 100⟩ (List.replicate 24 'k') ⟨(), 0⟩ 7 0).r = 0 ∧
    (doDecrypt idGcry upstreamEnv (List.replicate 16 7) "IV:0102030405060708\n".toList
        ⟨[], 100⟩ (List.replicate 24 'k') ⟨(), 0⟩ 7 0).r = 1 := by
  decide

/-- C16, as amended: a short write ends the current segment only.  In every iteration of
`decryptBlock` in which `fwrite` accepts fewer bytes than the `nRead` left by `removePadding`,
`decryptBlock` returns at that point: the ciphertext stream stands behind the chunk just read,
the output holds what `fwrite` accepted, and nothing more is read or written in this segment.
`decryptBlock` returns no status: behind every segment `doDecrypt` goes on with the next record
of the metadata stream, with `r = 0`. -/
theorem decryptBlock_short_write {σ : Type} (g : Gcry σ) (env : Env) (key : List Char) :
    (∀ (fuel : Nat) (st : DecState σ) (left : Nat) (chd : σ) (buf : List Nat),
      (fread (readSize st.globals.blkLength left) st.fpin).1.length ≠ 0 →
      g.decrypt st.globals.gcry_chd (fread (readSize st.globals.blkLength left) st.fpin).1
        = some (chd, buf) →
      st.fpout.room
        < (removePadding buf
            (fread (readSize st.globals.blkLength left) st.fpin).1.length).2 →
      decryptBlockLoop g (fuel + 1) st left =
        ⟨(fread (readSize st.globals.blkLength left) st.fpin).2,
          (fwrite st.fpout
            ((removePadding buf
                (fread (readSize st.globals.blkLength left) st.fpin).1.length).1.take
              (removePadding buf
                (fread (readSize st.globals.blkLength left) st.fpin).1.length).2)).1,
          st.currOffs + (fread (readSize st.globals.blkLength left) st.fpin).1.length,
          ⟨chd, st.globals.blkLength⟩⟩) ∧
    (∀ (fuel fuel2 : Nat) (eifp : List Char) (st : DecState σ) (r blkEnd : Int),
      (initCrypt g env eifp key st.globals).r = 0 →
      (eiGetEND env (initCrypt g env eifp key st.globals).eifp blkEnd).r = 0 →
      eifp.length < fuel →
      (eiGetEND env (initCrypt g env eifp key st.globals).eifp blkEnd).eifp.length < fuel2 →
      doDecryptLoop g env key fuel eifp st r blkEnd =
        doDecryptLoop g env key fuel2
          (eiGetEND env (initCrypt g env eifp key st.globals).eifp blkEnd).eifp
          (decryptBlock g
            ⟨st.fpin, st.fpout, st.currOffs, (initCrypt g env eifp key st.globals).globals⟩
            (eiGetEND env (initCrypt g env eifp key st.globals).eifp blkEnd).offs)
          0
          (eiGetEND env (initCrypt g env eifp key st.globals).eifp blkEnd).offs) := by
  constructor
  · intro fuel st left chd buf hn hd hshort
    rw [decryptBlockLoop_succ, if_neg hn, hd]
    have hw : (fwrite st.fpout
          ((removePadding buf
              (fread (readSize st.globals.blkLength left) st.fpin).1.length).1.take
            (removePadding buf
              (fread (readSize st.globals.blkLength left) st.fpin).1.length).2)).2
        ≠ (removePadding buf
            (fread (readSize st.globals.blkLength left) st.fpin).1.length).2 := by
      simp only [fwrite]
      have := Nat.min_le_right
        ((removePadding buf
              (fread (readSize st.globals.blkLength left) st.fpin).1.length).1.take
            (removePadding buf
              (fread (readSize st.globals.blkLength left) st.fpin).1.length).2).length
        st.fpout.room
      omega
    simp only [hw, ne_eq, not_false_eq_true, if_true]
  · intro fuel fuel2 eifp st r blkEnd hi he hf hf2
    exact doDecryptLoop_segment g env key fuel fuel2 eifp st r blkEnd hi he hf hf2

/-- C16, witness: an output stream with room for 4 bytes.  With 16 bytes left the chunk has
16 bytes and the loop returns behind it; with 8 bytes left the chunk has 8 bytes, 4 bytes are
written and the 8 bytes behind the chunk stay unread. -/
theorem decryptBlock_short_write_witness :
    decryptBlockLoop idGcry 17 ⟨List.replicate 16 7, ⟨[], 4⟩, 0, ⟨(), 8⟩⟩ 16
      = ⟨(fread (readSize 8 16) (List.replicate 16 7)).2,
          (fwrite ⟨[], 4⟩
            ((removePadding (List.replicate 16 7)
                (fread (readSize 8 16) (List.replicate 16 7)).1.length).1.take
              (removePadding (List.replicate 16 7)
                (fread (readSize 8 16) (List.replicate 16 7)).1.length).2)).1,
          0 + (fread (readSize 8 16) (List.replicate 16 7)).1.length,
          ⟨(), 8⟩⟩ ∧
    (decryptBlockLoop idGcry 17 ⟨List.replicate 16 7, ⟨[], 4⟩, 0, ⟨(), 8⟩⟩ 8).fpin
      = List.replicate 8 7 ∧
    (decryptBlockLoop idGcry 17 ⟨List.replicate 16 7, ⟨[], 4⟩, 0, ⟨(), 8⟩⟩ 8).fpout
      = ⟨[7, 7, 7, 7], 0⟩ :=
  ⟨(decryptBlock_short_write idGcry upstreamEnv (List.replicate 24 'k')).1 16
      ⟨List.replicate 16 7, ⟨[], 4⟩, 0, ⟨(), 8⟩⟩ 16 () (List.replicate 16 7)
      (by decide) (by decide) (by decide),
   by decide, by decide⟩

/-- C16, counterexample: the output stream has room for 4 bytes, so the write of the first
segment (8 bytes) is short; `doDecrypt` still processes the second segment, reads its 8 bytes
of ciphertext, and returns 0. -/
theorem doDecrypt_short_write_counterexample :
    (fwrite ⟨[], 4⟩ (List.replicate 8 7)).2 = 4 ∧
    (doDecrypt idGcry upstreamEnv (List.replicate 16 7)
        "IV:0102030405060708\nEND:8\nIV:0102030405060708\nEND:16\n".toList
        ⟨[], 4⟩ (List.replicate 24 'k') ⟨(), 0⟩ 1 0).st.fpin = [] ∧
    (doDecrypt idGcry upstreamEnv (List.replicate 16 7)
        "IV:0102030405060708\nEND:8\nIV:0102030405060708\nEND:16\n".toList
        ⟨[], 4⟩ (List.replicate 24 'k') ⟨(), 0⟩ 1 0).st.currOffs = 16 ∧
    (doDecrypt idGcry upstreamEnv (List.replicate 16 7)
        "IV:0102030405060708\nEND:8\nIV:0102030405060708\nEND:16\n".toList
        ⟨[], 4⟩ (List.replicate 24 'k') ⟨(), 0⟩ 1 0).r = 0 := by
  decide

/-! ## removePadding as the removal of all zero bytes -/

/-- For a length that fits `unsigned`, `removePadding` leaves the non-zero bytes of the first
`plen` bytes, in their order, and their number as the new length. -/
theorem removePadding_filter (buf : List Nat) (plen : Nat) (h32 : plen < 2 ^ 32)
    (hbuf : plen ≤ buf.length) :
    (removePadding buf plen).1.take (removePadding buf plen).2
        = (buf.take plen).filter (· ≠ 0) ∧
    (removePadding buf plen).2 = ((buf.take plen).filter (· ≠ 0)).length := by
  cases hm : memchr buf 0 plen with
  | none =>
    have h := (memchr_none_iff buf 0 plen).1 hm
    rw [removePadding_no_zero buf plen h]
    have hf : (buf.take plen).filter (· ≠ 0) = buf.take plen :=
      List.filter_eq_self.2 (fun x hx => by simpa using h x hx)
    rw [hf]
    exact ⟨rfl, by rw [List.length_take]; omega⟩
  | some i =>
    obtain ⟨h1, h2, _, h4⟩ := memchr_some buf 0 plen i hm
    have hi32 : i % 2 ^ 32 = i := Nat.mod_eq_of_lt (by omega)
    have hn32 : plen % 2 ^ 32 = plen := Nat.mod_eq_of_lt h32
    have hr : removePadding buf plen = removePaddingLoop (plen - i) buf plen i i := by
      simp only [removePadding, hm, hi32, hn32]
    obtain ⟨e2, e1⟩ := removePaddingLoop_spec (plen - i) buf plen i i le_rfl hbuf le_rfl
    have hlen1 : (buf.take i).length = i := by
      rw [List.length_take]; omega
    have hsplit : (buf.take plen).filter (· ≠ 0)
        = buf.take i ++ ((buf.take plen).drop i).filter (· ≠ 0) := by
      conv_lhs => rw [← List.take_append_drop i (buf.take plen)]
      rw [List.filter_append, List.take_take, Nat.min_eq_left (by omega)]
      congr 1
      exact List.filter_eq_self.2 (fun x hx => by simpa using h4 x hx)
    rw [hr, hsplit]
    constructor
    · rw [e1, e2, List.take_append_of_le_length (by rw [List.length_append, hlen1]),
        List.take_of_length_le (by rw [List.length_append, hlen1])]
    · rw [e2, List.length_append, hlen1]

/-- The hexadecimal text of `n` bytes has `2 * n` characters. -/
theorem hexOfBytes_length (bs : List Nat) : (hexOfBytes bs).length = 2 * bs.length := by
  induction bs with
  | nil => rfl
  | cons x xs ih => simp only [hexOfBytes, List.length_cons, ih]; omega

/-- The sixteen digits: position `d` of `0123456789abcdef` is a digit of value `d`. -/
theorem lowerHexDigits_getD : ∀ d, d < 16 →
    lowerHexDigits.getD d '0' ∈ lowerHexDigits ∧
    hexDigitValue (lowerHexDigits.getD d '0') = d := by
  decide

/-- The hexadecimal text of bytes is made of lower-case hexadecimal digits. -/
theorem hexOfBytes_digits (bs : List Nat) (hb : ∀ x ∈ bs, x < 256) :
    ∀ c ∈ hexOfBytes bs, c ∈ lowerHexDigits := by
  induction bs with
  | nil => intro c hc; simp [hexOfBytes] at hc
  | cons x xs ih =>
    intro c hc
    have hx : x < 256 := hb x (by simp)
    simp only [hexOfBytes, List.mem_cons] at hc
    rcases hc with h | h | h
    · rw [h]; exact (lowerHexDigits_getD (x / 16) (by omega)).1
    · rw [h]; exact (lowerHexDigits_getD (x % 16) (by omega)).1
    · exact ih (fun y hy => hb y (by simp [hy])) c h

/-- The two digits of byte `k` in the hexadecimal text give the byte back. -/
theorem hexOfBytes_value (bs : List Nat) (hb : ∀ x ∈ bs, x < 256) :
    ∀ k, k < bs.length →
      16 * hexDigitValue ((hexOfBytes bs).getD (2 * k) '0')
        + hexDigitValue ((hexOfBytes bs).getD (2 * k + 1) '0') = bs.getD k 0 := by
  induction bs with
  | nil => intro k hk; simp at hk
  | cons x xs ih =>
    intro k hk
    have hx : x < 256 := hb x (by simp)
    cases k with
    | zero =>
      simp only [hexOfBytes, Nat.mul_zero, List.getD_cons_zero, Nat.zero_add,
        List.getD_cons_succ]
      rw [(lowerHexDigits_getD (x / 16) (by omega)).2,
        (lowerHexDigits_getD (x % 16) (by omega)).2]
      omega
    | succ k =>
      have := ih (fun y hy => hb y (by simp [hy])) k (by simpa using hk)
      simp only [hexOfBytes, Nat.mul_add, Nat.mul_one, List.getD_cons_succ]
      exact this

/-- The digit characters: `48 + d` is the decimal digit of value `d`. -/
theorem digit_char : ∀ d, d < 10 →
    isdigit (Char.ofNat (48 + d)) = true ∧ (Char.ofNat (48 + d)).toNat - '0'.toNat = d ∧
    Char.ofNat (48 + d) ≠ '\n' ∧ Char.ofNat (48 + d) ≠ '\x00' := by
  decide

/-- The digits that `decimalAux` writes: they are decimal digits, their base-10 value is `n`,
and there are at most `k` of them when `n < 10^k`. -/
theorem decimalAux_spec :
    ∀ (fuel n : Nat) (acc : List Char), n < fuel →
      (∀ c ∈ acc, isdigit c = true ∧ c ≠ '\n' ∧ c ≠ '\x00') →
      (∀ c ∈ decimalAux fuel n acc, isdigit c = true ∧ c ≠ '\n' ∧ c ≠ '\x00') ∧
      base10 (decimalAux fuel n acc) = n * 10 ^ acc.length + base10 acc ∧
      ∀ k, 0 < k → n < 10 ^ k → (decimalAux fuel n acc).length ≤ acc.length + k := by
  intro fuel
  induction fuel with
  | zero => intro n acc h; omega
  | succ fuel ih =>
    intro n acc hn hacc
    by_cases h10 : n < 10
    · have hd := digit_char n h10
      simp only [decimalAux, if_pos h10]
      refine ⟨?_, ?_, ?_⟩
      · intro c hc
        rcases List.mem_cons.1 hc with h | h
        · rw [h]; exact ⟨hd.1, hd.2.2.1, hd.2.2.2⟩
        · exact hacc c h
      · rw [base10_cons, hd.2.1]
      · intro k hk _
        simp only [List.length_cons]
        omega
    · have hd := digit_char (n % 10) (Nat.mod_lt _ (by decide))
      simp only [decimalAux, if_neg h10]
      obtain ⟨h1, h2, h3⟩ := ih (n / 10) (Char.ofNat (48 + n % 10) :: acc) (by omega)
        (by
          intro c hc
          rcases List.mem_cons.1 hc with h | h
          · rw [h]; exact ⟨hd.1, hd.2.2.1, hd.2.2.2⟩
          · exact hacc c h)
      refine ⟨h1, ?_, ?_⟩
      · rw [h2, base10_cons, hd.2.1, List.length_cons, pow_succ]
        have e : n * 10 ^ acc.length
            = n / 10 * (10 ^ acc.length * 10) + n % 10 * 10 ^ acc.length := by
          conv_lhs => rw [← Nat.div_add_mod n 10]
          ring
        rw [e]
        ring
      · intro k hk hlt
        cases k with
        | zero => omega
        | succ k =>
          have hk1 : 0 < k := by
            rcases Nat.eq_zero_or_pos k with h | h
            · subst h; simp at hlt; omega
            · exact h
          have := h3 k hk1 (by
            rw [pow_succ] at hlt
            exact Nat.div_lt_of_lt_mul (by rw [Nat.mul_comm]; exact hlt))
          simp only [List.length_cons] at this
          omega

/-- The decimal text of an offset below `2^63`: decimal digits, at most 19 of them, that
`atoll` reads back as the offset. -/
theorem decimalOf_spec (n : Nat) (hn : n < 2 ^ 63) :
    (∀ c ∈ decimalOf n, c ≠ '\n' ∧ c ≠ '\x00') ∧
    (decimalOf n).length ≤ 19 ∧
    atoll (decimalOf n) = (n : Int) := by
  obtain ⟨h1, h2, h3⟩ := decimalAux_spec (n + 1) n [] (by omega) (by simp)
  have hb : base10 (decimalOf n) = n := by
    unfold decimalOf
    rw [h2]
    simp [base10]
  refine ⟨fun c hc => (h1 c hc).2, ?_, ?_⟩
  · have := h3 19 (by decide) (lt_trans hn (by norm_num))
    simpa [decimalOf] using this
  · rw [atoll_digits (decimalOf n) (fun c hc => (h1 c hc).1) (by rw [hb]; exact hn), hb]

/-- The lower-case hexadecimal digits are neither newline nor NUL. -/
theorem lowerHexDigits_plain : ∀ c ∈ lowerHexDigits, c ≠ '\n' ∧ c ≠ '\x00' := by
  decide

/-- Function `eiGetEND` on the `END` record that the encryptor writes for an offset below
`2^63`. -/
theorem eiGetEND_line (env : Env) (n : Nat) (rest : List Char) (b0 : Int) (hn : n < 2 ^ 63)
    (hR : 3 ≤ env.EIF_MAX_RECTYPE_LEN) (hV : 23 ≤ env.EIF_MAX_VALUE_LEN) :
    eiGetEND env (['E', 'N', 'D'] ++ ':' :: (decimalOf n ++ '\n' :: rest)) b0
      = ⟨0, rest, (n : Int)⟩ := by
  obtain ⟨h1, h2, h3⟩ := decimalOf_spec n hn
  have hrec := eiGetRecord_line env ['E', 'N', 'D'] (decimalOf n) rest (by decide) (by decide)
    h1 (by simpa using hR) (by simp only [List.length_cons, List.length_nil]; omega)
  rw [List.take_of_length_le (by simp only [List.length_cons, List.length_nil]; omega)] at hrec
  unfold eiGetEND
  rw [hrec]
  simp [h3]

/-- Function `initCrypt` when every step succeeds. -/
theorem initCrypt_ok {σ : Type} (g : Gcry σ) (env : Env) (eifp key rest : List Char)
    (gl : Globals σ) (ivbuf : List Nat) (h0 h1 h2 : σ) (hb : g.blklen ≤ 4096)
    (hiv : eiGetIV env eifp (List.replicate 4096 0) g.blklen = ⟨0, rest, ivbuf⟩)
    (hkey : key.length = g.keylen) (ho : g.cipher_open = some h0)
    (hk : g.setkey h0 key = some h1) (hs : g.setiv h1 (ivbuf.take g.blklen) = some h2) :
    initCrypt g env eifp key gl = ⟨0, rest, ⟨h2, g.blklen⟩⟩ := by
  unfold initCrypt
  rw [if_neg (by omega)]
  simp only [hiv, ne_eq, not_true_eq_false, if_false, hkey, ho, hk, hs]

/-- Function `initCrypt` on the `IV` record that the encryptor writes for an IV of one block:
it returns 0 behind the record, with a cipher handle that is ready for every message encrypted
under that IV. -/
theorem initCrypt_line {σ : Type} (g : Gcry σ) (env : Env) (key : List Char)
    (E : List Nat → List Nat → List Nat) (Ready : σ → List Nat → List Nat → Prop)
    (law : CipherLaw g key E Ready) (iv : List Nat) (rest : List Char) (gl : Globals σ)
    (m : List Nat) (hivlen : iv.length = g.blklen) (hbytes : ∀ x ∈ iv, x < 256)
    (hb : g.blklen ≤ 4096) (hR : 2 ≤ env.EIF_MAX_RECTYPE_LEN)
    (hV : 2 * g.blklen + 3 ≤ env.EIF_MAX_VALUE_LEN) (hm : g.blklen ∣ m.length) :
    ∃ h2, initCrypt g env (['I', 'V'] ++ ':' :: (hexOfBytes iv ++ '\n' :: rest)) key gl
        = ⟨0, rest, ⟨h2, g.blklen⟩⟩ ∧ Ready h2 (E iv m) m := by
  obtain ⟨h0, h1, ho, hk, hset⟩ := law.opened
  obtain ⟨h2, hs, hr⟩ := hset iv m hivlen hm
  refine ⟨h2, ?_, hr⟩
  have hhl := hexOfBytes_length iv
  have hrec := eiGetRecord_line env ['I', 'V'] (hexOfBytes iv) rest (by decide) (by decide)
    (fun c hc => lowerHexDigits_plain c (hexOfBytes_digits iv hbytes c hc))
    (by simpa using hR) (by simp only [List.length_cons, List.length_nil]; omega)
  rw [List.take_of_length_le (by simp only [List.length_cons, List.length_nil]; omega)] at hrec
  have hl0 : (List.replicate 4096 0).length = 4096 := List.length_replicate _ _
  have hiv := eiGetIV_of_record env _ (List.replicate 4096 0) g.blklen (hexOfBytes iv) rest
    hrec (by omega)
  obtain ⟨_, p2, p3, _⟩ := ivLoop_pairs g.blklen (hexOfBytes iv) 0 0 (List.replicate 4096 0)
    (by omega) (hexOfBytes_digits iv hbytes) rfl (by omega)
  have htake : (ivLoop (hexOfBytes iv) 0 0 (List.replicate 4096 0)).2.take g.blklen = iv := by
    apply List.ext_getElem
    · rw [List.length_take]; omega
    · intro k hk1 hk2
      have hkb : k < g.blklen := by omega
      have e := p3 k hkb
      rw [Nat.zero_add, hexOfBytes_value iv hbytes k (by omega),
        List.getD_eq_getElem _ _ (by omega), List.getD_eq_getElem _ _ hk2] at e
      rw [List.getElem_take]
      exact e
  have hr0 : (ivLoop (hexOfBytes iv) 0 0 (List.replicate 4096 0)).1 = 0 :=
    (ivLoop_pairs g.blklen (hexOfBytes iv) 0 0 (List.replicate 4096 0)
      (by omega) (hexOfBytes_digits iv hbytes) rfl (by omega)).1
  rw [hr0] at hiv
  exact initCrypt_ok g env _ key rest gl _ h0 h1 h2 hb hiv law.keylen ho hk
    (by rw [htake]; exact hs)

/-- The read size is a multiple of the block length. -/
theorem readSize_dvd (b left : Nat) : b ∣ readSize b left := by
  unfold readSize
  exact Nat.dvd_sub_mod _

/-- The read size is at most the size of the buffer. -/
theorem readSize_le_buf (b left : Nat) : readSize b left ≤ 65536 := by
  unfold readSize
  split <;> omega

/-- With at least one block left and a block that fits the buffer, the read size is not 0. -/
theorem readSize_pos (b left : Nat) (hb : 0 < b) (hb2 : b ≤ 65536) (hl : b ≤ left) :
    0 < readSize b left := by
  unfold readSize
  have h : b ≤ (if 65536 ≤ left then 65536 else left) := by
    split <;> omega
  generalize (if 65536 ≤ left then 65536 else left) = t at h
  have h1 := Nat.div_add_mod t b
  have h2 := Nat.mod_lt t hb
  have h3 : 0 < t / b := Nat.div_pos h hb
  have h4 : b ≤ b * (t / b) := Nat.le_mul_of_pos_right b h3
  omega

/-- Function `decryptBlock` on one segment of the encryptor: with a handle that is ready for
the ciphertext `c` of the block-aligned message `m`, the loop reads `c`, writes the non-zero
bytes of `m` and moves the running offset by the length of `c`. -/
theorem decryptBlockLoop_segment {σ : Type} (g : Gcry σ) (key : List Char)
    (E : List Nat → List Nat → List Nat) (Ready : σ → List Nat → List Nat → Prop)
    (law : CipherLaw g key E Ready) (hb : g.blklen ≤ 4096) :
    ∀ (fuel : Nat) (c m rest : List Nat) (h : σ) (out : Sink) (offs : Int),
      Ready h c m → g.blklen ∣ c.length → c.length < fuel →
      (m.filter (· ≠ 0)).length ≤ out.room →
      ∃ h2, decryptBlockLoop g fuel ⟨c ++ rest, out, offs, ⟨h, g.blklen⟩⟩ c.length
        = ⟨rest, ⟨out.data ++ m.filter (· ≠ 0), out.room - (m.filter (· ≠ 0)).length⟩,
            offs + (c.length : Int), ⟨h2, g.blklen⟩⟩ := by
  intro fuel
  induction fuel with
  | zero => intro c m rest h out offs _ _ hf; omega
  | succ fuel ih =>
    intro c m rest h out offs hready hdvd hfuel hroom
    have hcm := law.same_length h c m hready
    rw [decryptBlockLoop_succ]
    simp only []
    by_cases hc0 : c.length = 0
    · have hc : c = [] := List.length_eq_zero.1 hc0
      have hm : m = [] := List.length_eq_zero.1 (by omega)
      subst hc
      subst hm
      refine ⟨h, ?_⟩
      have : readSize g.blklen 0 = 0 := Nat.le_zero.1 (readSize_le _ _)
      simp [this, fread]
    · have hbl : g.blklen ≤ c.length := Nat.le_of_dvd (by omega) hdvd
      have hn0 := readSize_pos g.blklen c.length law.blk_pos (by omega) hbl
      have hnle := readSize_le g.blklen c.length
      have hn64 := readSize_le_buf g.blklen c.length
      have hndvd := readSize_dvd g.blklen c.length
      generalize readSize g.blklen c.length = n at hn0 hnle hn64 hndvd
      have hfread : fread n (c ++ rest) = (c.take n, c.drop n ++ rest) := by
        simp only [fread, List.take_append_of_le_length hnle,
          List.drop_append_of_le_length hnle]
      have hnr : (c.take n).length = n := by rw [List.length_take]; omega
      obtain ⟨h2, hdec, hready2⟩ := law.step h c m n hready hn0 hnle hndvd
      have hmt : (m.take n).length = n := by rw [List.length_take]; omega
      obtain ⟨f1, f2⟩ := removePadding_filter (m.take n) n (by omega) (by omega)
      rw [List.take_take, Nat.min_self] at f1 f2
      have hsplit : m.filter (· ≠ 0)
          = (m.take n).filter (· ≠ 0) ++ (m.drop n).filter (· ≠ 0) := by
        rw [← List.filter_append, List.take_append_drop]
      have hlen12 : (m.filter (· ≠ 0)).length
          = ((m.take n).filter (· ≠ 0)).length + ((m.drop n).filter (· ≠ 0)).length := by
        rw [hsplit, List.length_append]
      have hw : fwrite out ((m.take n).filter (· ≠ 0))
          = (⟨out.data ++ (m.take n).filter (· ≠ 0),
              out.room - ((m.take n).filter (· ≠ 0)).length⟩,
             ((m.take n).filter (· ≠ 0)).length) := by
        simp only [fwrite]
        rw [Nat.min_eq_left (by omega), List.take_of_length_le (le_refl _)]
      have f3 := f1
      rw [f2] at f3
      rw [hfread]
      simp only [hnr, hdec, f2, f3, hw]
      rw [if_neg (by omega), if_neg (fun hne => hne rfl)]
      have hcd : c.length - n = (c.drop n).length := by rw [List.length_drop]
      rw [hcd]
      obtain ⟨h3, e⟩ := ih (c.drop n) (m.drop n) rest h2
        ⟨out.data ++ (m.take n).filter (· ≠ 0),
          out.room - ((m.take n).filter (· ≠ 0)).length⟩ (offs + (n : Int)) hready2
        (by rw [List.length_drop]; exact Nat.dvd_sub' hdvd hndvd)
        (by rw [List.length_drop]; omega)
        (by simp only []; omega)
      refine ⟨h3, ?_⟩
      rw [e]
      congr 1
      · congr 1
        · rw [hsplit, List.append_assoc]
        · simp only []
          omega
      · rw [List.length_drop]
        push_cast [Nat.cast_sub hnle]
        ring

/-- The padded segment has a whole number of blocks. -/
theorem zeroPad_dvd (b : Nat) (p : List Nat) (hb : 0 < b) : b ∣ (zeroPad b p).length := by
  unfold zeroPad
  rw [List.length_append, List.length_replicate]
  have h1 := Nat.div_add_mod p.length b
  have h2 := Nat.mod_lt p.length hb
  by_cases h0 : p.length % b = 0
  · rw [h0, Nat.sub_zero, Nat.mod_self, Nat.add_zero]
    exact Nat.dvd_of_mod_eq_zero h0
  · rw [Nat.mod_eq_of_lt (by omega)]
    refine ⟨p.length / b + 1, ?_⟩
    rw [Nat.mul_add, Nat.mul_one]
    omega

/-- The non-zero bytes of the padded segment are those of the segment. -/
theorem zeroPad_filter (b : Nat) (p : List Nat) :
    (zeroPad b p).filter (· ≠ 0) = p.filter (· ≠ 0) := by
  unfold zeroPad
  rw [List.filter_append]
  have : (List.replicate ((b - p.length % b) % b) 0).filter (· ≠ 0) = [] := by
    rw [List.filter_eq_nil_iff]
    intro x hx
    simp [List.eq_of_mem_replicate hx]
  rw [this, List.append_nil]

/-- At the end of the metadata stream `initCrypt` returns non-zero. -/
theorem initCrypt_eof {σ : Type} (g : Gcry σ) (env : Env) (key : List Char) (gl : Globals σ) :
    (initCrypt g env [] key gl).r ≠ 0 ∧ (initCrypt g env [] key gl).eifp = [] := by
  have hrec : eiGetRecord env [] = ⟨1, [], [], []⟩ := by
    simp [eiGetRecord, fgets]
  unfold initCrypt
  by_cases hb : g.blklen > 4096
  · rw [if_pos hb]
    exact ⟨one_ne_zero, rfl⟩
  · rw [if_neg hb]
    have hiv : ∀ iv0, eiGetIV env [] iv0 g.blklen = ⟨1, [], iv0⟩ := by
      intro iv0
      simp [eiGetIV, hrec]
    simp only [hiv]
    rw [if_pos one_ne_zero]
    exact ⟨one_ne_zero, rfl⟩

/-- Function `doDecrypt` on what the encryptor wrote, from any segment on: the loop reads the
ciphertext of all segments, writes the non-zero bytes of their plaintext, stops at the end of
the metadata stream, and returns 0 if there was a segment and the `r` of the entry if not. -/
theorem doDecryptLoop_segments {σ : Type} (g : Gcry σ) (env : Env) (key : List Char)
    (E : List Nat → List Nat → List Nat) (Ready : σ → List Nat → List Nat → Prop)
    (law : CipherLaw g key E Ready) (hb : g.blklen ≤ 4096)
    (hR : 3 ≤ env.EIF_MAX_RECTYPE_LEN) (hV : 2 * g.blklen + 3 ≤ env.EIF_MAX_VALUE_LEN)
    (hV2 : 23 ≤ env.EIF_MAX_VALUE_LEN) :
    ∀ (segs : List Segment) (fuel offs : Nat) (extra : List Nat) (out : Sink)
      (gl : Globals σ) (r bE : Int),
      (∀ s ∈ segs, s.iv.length = g.blklen ∧ ∀ x ∈ s.iv, x < 256) →
      offs + (encCiphertext E g.blklen segs).length < 2 ^ 63 →
      ((allPlain segs).filter (· ≠ 0)).length ≤ out.room →
      (encMetadata E g.blklen offs segs).length < fuel →
      (doDecryptLoop g env key fuel (encMetadata E g.blklen offs segs)
          ⟨encCiphertext E g.blklen segs ++ extra, out, (offs : Int), gl⟩ r bE).r
        = (if segs.length = 0 then r else 0) ∧
      (doDecryptLoop g env key fuel (encMetadata E g.blklen offs segs)
          ⟨encCiphertext E g.blklen segs ++ extra, out, (offs : Int), gl⟩ r bE).eifp = [] ∧
      (doDecryptLoop g env key fuel (encMetadata E g.blklen offs segs)
          ⟨encCiphertext E g.blklen segs ++ extra, out, (offs : Int), gl⟩ r bE).st.fpin
        = extra ∧
      (doDecryptLoop g env key fuel (encMetadata E g.blklen offs segs)
          ⟨encCiphertext E g.blklen segs ++ extra, out, (offs : Int), gl⟩ r bE).st.fpout
        = ⟨out.data ++ (allPlain segs).filter (· ≠ 0),
            out.room - ((allPlain segs).filter (· ≠ 0)).length⟩ ∧
      (doDecryptLoop g env key fuel (encMetadata E g.blklen offs segs)
          ⟨encCiphertext E g.blklen segs ++ extra, out, (offs : Int), gl⟩ r bE).st.currOffs
        = ((offs + (encCiphertext E g.blklen segs).length : Nat) : Int) := by
  intro segs
  induction segs with
  | nil =>
    intro fuel offs extra out gl r bE _ _ _ hfuel
    cases fuel with
    | zero => simp [encMetadata] at hfuel
    | succ fuel =>
      obtain ⟨h1, h2⟩ := initCrypt_eof g env key gl
      simp only [encMetadata, encCiphertext, allPlain]
      rw [doDecryptLoop_succ]
      simp only []
      rw [if_pos h1]
      simp [h2]
  | cons s ss ih =>
    intro fuel offs extra out gl r bE hiv hlen hroom hfuel
    have hs := hiv s (by simp)
    have hdvd := zeroPad_dvd g.blklen s.plain law.blk_pos
    obtain ⟨h2, hinit, hready⟩ := initCrypt_line g env key E Ready law s.iv
      (['E', 'N', 'D'] ++ ':' ::
        (decimalOf (offs + (E s.iv (zeroPad g.blklen s.plain)).length) ++ '\n' ::
          encMetadata E g.blklen (offs + (E s.iv (zeroPad g.blklen s.plain)).length) ss))
      gl (zeroPad g.blklen s.plain) hs.1 hs.2 hb (by omega) hV hdvd
    have hcm := law.same_length h2 _ _ hready
    simp only [encCiphertext, List.length_append] at hlen
    have hend := eiGetEND_line env (offs + (E s.iv (zeroPad g.blklen s.plain)).length)
      (encMetadata E g.blklen (offs + (E s.iv (zeroPad g.blklen s.plain)).length) ss) bE
      (by omega) hR hV2
    generalize hc : E s.iv (zeroPad g.blklen s.plain) = c at hinit hready hcm hlen hend
    have hmeta : encMetadata E g.blklen offs (s :: ss)
        = ['I', 'V'] ++ ':' :: (hexOfBytes s.iv ++ '\n' ::
            (['E', 'N', 'D'] ++ ':' ::
              (decimalOf (offs + c.length) ++ '\n' ::
                encMetadata E g.blklen (offs + c.length) ss))) := by
      simp only [encMetadata, hc]
    have hcipher : encCiphertext E g.blklen (s :: ss) ++ extra
        = c ++ (encCiphertext E g.blklen ss ++ extra) := by
      simp only [encCiphertext, hc, List.append_assoc]
    have hlenc : (encCiphertext E g.blklen (s :: ss)).length
        = c.length + (encCiphertext E g.blklen ss).length := by
      simp only [encCiphertext, hc, List.length_append]
    have hfilt : (allPlain (s :: ss)).filter (· ≠ 0)
        = (zeroPad g.blklen s.plain).filter (· ≠ 0) ++ (allPlain ss).filter (· ≠ 0) := by
      simp only [allPlain, List.filter_append, zeroPad_filter]
    rw [hfilt, List.length_append] at hroom
    rw [hmeta] at hfuel ⊢
    rw [hcipher, hfilt, hlenc]
    have hshort : (encMetadata E g.blklen (offs + c.length) ss).length < fuel := by
      simp only [List.length_append, List.length_cons] at hfuel
      omega
    have hseg := doDecryptLoop_segment g env key fuel fuel _
      ⟨c ++ (encCiphertext E g.blklen ss ++ extra), out, (offs : Int), gl⟩ r bE
      (by simp only []; rw [hinit])
      (by simp only []; rw [hinit]; simp only []; rw [hend])
      hfuel
      (by simp only []; rw [hinit]; simp only []; rw [hend]; exact hshort)
    simp only [] at hseg
    rw [hinit] at hseg
    simp only [] at hseg
    rw [hend] at hseg
    simp only [] at hseg
    have hleft : (((((offs + c.length : Nat) : Int) - (offs : Int)) % 2 ^ 64).toNat)
        = c.length := by
      have : (((offs + c.length : Nat) : Int) - (offs : Int)) = (c.length : Int) := by
        push_cast; ring
      rw [this]
      omega
    obtain ⟨h3, hblock⟩ := decryptBlockLoop_segment g key E Ready law hb
      ((c ++ (encCiphertext E g.blklen ss ++ extra)).length + 1) c (zeroPad g.blklen s.plain)
      (encCiphertext E g.blklen ss ++ extra) h2 out (offs : Int) hready
      (by rw [hcm]; exact hdvd)
      (by rw [List.length_append]; omega)
      (by omega)
    have hdb : decryptBlock g
        ⟨c ++ (encCiphertext E g.blklen ss ++ extra), out, (offs : Int), ⟨h2, g.blklen⟩⟩
        ((offs + c.length : Nat) : Int)
        = ⟨encCiphertext E g.blklen ss ++ extra,
            ⟨out.data ++ (zeroPad g.blklen s.plain).filter (· ≠ 0),
              out.room - ((zeroPad g.blklen s.plain).filter (· ≠ 0)).length⟩,
            ((offs + c.length : Nat) : Int), ⟨h3, g.blklen⟩⟩ := by
      unfold decryptBlock
      simp only []
      rw [hleft, hblock]
      push_cast
      rfl
    rw [hseg, hdb]
    obtain ⟨i1, i2, i3, i4, i5⟩ := ih fuel (offs + c.length) extra
      ⟨out.data ++ (zeroPad g.blklen s.plain).filter (· ≠ 0),
        out.room - ((zeroPad g.blklen s.plain).filter (· ≠ 0)).length⟩
      ⟨h3, g.blklen⟩ 0 ((offs + c.length : Nat) : Int)
      (fun t ht => hiv t (by simp [ht]))
      (by omega)
      (by simp only []; omega)
      hshort
    refine ⟨?_, i2, i3, ?_, ?_⟩
    · rw [i1]
      simp
    · rw [i4]
      simp only [List.append_assoc, List.length_append]
      congr 1
      omega
    · rw [i5]
      congr 1
      omega

/-- The identity transform of `idGcry` is a cipher in the sense of `CipherLaw`, under any key
of 24 characters. -/
theorem idGcry_law (key : List Char) (hkey : key.length = 24) :
    CipherLaw idGcry key (fun _ m => m) (fun _ c m => c = m) where
  keylen := hkey
  blk_pos := by decide
  opened := ⟨(), (), rfl, rfl, fun _ _ _ _ => ⟨(), rfl, rfl⟩⟩
  step := by
    intro h c m n hcm _ _ _
    subst hcm
    exact ⟨(), rfl, rfl⟩
  same_length := by
    intro h c m hcm
    rw [hcm]

/-- C17, as amended: the round trip for plaintext without zero bytes.  For every key of the
required length, every cipher that decrypts what `E` encrypted, and every list of segments,
when the companion encryptor wrote the ciphertext (every segment zero-padded to a block
multiple and encrypted under its own IV) and the `IV` and `END` records, `doDecrypt` reads the
whole ciphertext and writes the plaintext with its zero bytes removed; for a plaintext that
holds no zero byte this is exactly the original plaintext. -/
theorem doDecrypt_round_trip {σ : Type} (g : Gcry σ) (env : Env) (key : List Char)
    (E : List Nat → List Nat → List Nat) (Ready : σ → List Nat → List Nat → Prop)
    (law : CipherLaw g key E Ready) (segs : List Segment) (outfp : Sink) (gl : Globals σ)
    (r0 blkEnd0 : Int) (hb : g.blklen ≤ 4096)
    (hR : 3 ≤ env.EIF_MAX_RECTYPE_LEN) (hV : 2 * g.blklen + 3 ≤ env.EIF_MAX_VALUE_LEN)
    (hV2 : 23 ≤ env.EIF_MAX_VALUE_LEN)
    (hiv : ∀ s ∈ segs, s.iv.length = g.blklen ∧ ∀ x ∈ s.iv, x < 256)
    (hlen : (encCiphertext E g.blklen segs).length < 2 ^ 63)
    (hroom : (allPlain segs).length ≤ outfp.room) :
    (doDecrypt g env (encCiphertext E g.blklen segs) (encMetadata E g.blklen 0 segs) outfp key
        gl r0 blkEnd0).st.fpin = [] ∧
    (doDecrypt g env (encCiphertext E g.blklen segs) (encMetadata E g.blklen 0 segs) outfp key
        gl r0 blkEnd0).st.fpout.data = outfp.data ++ (allPlain segs).filter (· ≠ 0) ∧
    ((∀ x ∈ allPlain segs, x ≠ 0) →
      (doDecrypt g env (encCiphertext E g.blklen segs) (encMetadata E g.blklen 0 segs) outfp
          key gl r0 blkEnd0).st.fpout.data = outfp.data ++ allPlain segs) := by
  have hfl : ((allPlain segs).filter (· ≠ 0)).length ≤ outfp.room :=
    le_trans (List.length_filter_le _ _) hroom
  obtain ⟨_, _, h3, h4, _⟩ := doDecryptLoop_segments g env key E Ready law hb hR hV hV2 segs
    ((encMetadata E g.blklen 0 segs).length + 1) 0 [] outfp gl r0 blkEnd0 hiv
    (by omega) hfl (by omega)
  rw [List.append_nil] at h3 h4
  have hd : doDecrypt g env (encCiphertext E g.blklen segs) (encMetadata E g.blklen 0 segs)
      outfp key gl r0 blkEnd0
      = doDecryptLoop g env key ((encMetadata E g.blklen 0 segs).length + 1)
          (encMetadata E g.blklen 0 segs)
          ⟨encCiphertext E g.blklen segs, outfp, ((0 : Nat) : Int), gl⟩ r0 blkEnd0 := rfl
  rw [hd, h3, h4]
  refine ⟨rfl, rfl, ?_⟩
  intro hnz
  have : (allPlain segs).filter (· ≠ 0) = allPlain segs :=
    List.filter_eq_self.2 (fun x hx => by simpa using hnz x hx)
  simp only [this]

/-- C17, witness: two segments, `41 42 43` and `44 45 46 47 48 49 4a 4b 4c`, under a key of 24
characters and the identity cipher with block length 8; `doDecrypt` writes the twelve bytes of
the plaintext. -/
theorem doDecrypt_round_trip_witness :
    (doDecrypt idGcry upstreamEnv
        (encCiphertext (fun _ m => m) idGcry.blklen
          [⟨[1, 2, 3, 4, 5, 6, 7, 8], [0x41, 0x42, 0x43]⟩,
            ⟨[8, 7, 6, 5, 4, 3, 2, 255],
              [0x44, 0x45, 0x46, 0x47, 0x48, 0x49, 0x4a, 0x4b, 0x4c]⟩])
        (encMetadata (fun _ m => m) idGcry.blklen 0
          [⟨[1, 2, 3, 4, 5, 6, 7, 8], [0x41, 0x42, 0x43]⟩,
            ⟨[8, 7, 6, 5, 4, 3, 2, 255],
              [0x44, 0x45, 0x46, 0x47, 0x48, 0x49, 0x4a, 0x4b, 0x4c]⟩])
        ⟨[], 100⟩ (List.replicate 24 'k') ⟨(), 0⟩ 0 0).st.fpout.data
      = [] ++ allPlain
          [⟨[1, 2, 3, 4, 5, 6, 7, 8], [0x41, 0x42, 0x43]⟩,
            ⟨[8, 7, 6, 5, 4, 3, 2, 255],
              [0x44, 0x45, 0x46, 0x47, 0x48, 0x49, 0x4a, 0x4b, 0x4c]⟩] ∧
    encMetadata (fun _ m => m) idGcry.blklen 0
        [⟨[1, 2, 3, 4, 5, 6, 7, 8], [0x41, 0x42, 0x43]⟩,
          ⟨[8, 7, 6, 5, 4, 3, 2, 255],
            [0x44, 0x45, 0x46, 0x47, 0x48, 0x49, 0x4a, 0x4b, 0x4c]⟩]
      = "IV:0102030405060708\nEND:8\nIV:08070605040302ff\nEND:24\n".toList :=
  ⟨(doDecrypt_round_trip idGcry upstreamEnv (List.replicate 24 'k') (fun _ m => m)
      (fun _ c m => c = m) (idGcry_law (List.replicate 24 'k') (by decide))
      [⟨[1, 2, 3, 4, 5, 6, 7, 8], [0x41, 0x42, 0x43]⟩,
        ⟨[8, 7, 6, 5, 4, 3, 2, 255],
          [0x44, 0x45, 0x46, 0x47, 0x48, 0x49, 0x4a, 0x4b, 0x4c]⟩]
      ⟨[], 100⟩ ⟨(), 0⟩ 0 0 (by decide) (by decide) (by decide) (by decide) (by decide)
      (by decide) (by decide)).2.2 (by decide),
   by decide⟩

/-- C17, counterexample: the plaintext `01 00 02` holds a zero byte; the encryptor pads it to
`01 00 02 00 00 00 00 00`, and `doDecrypt` on its ciphertext and metadata, under the identity
cipher, writes `01 02`, not the plaintext. -/
theorem doDecrypt_round_trip_counterexample :
    encCiphertext (fun _ m => m) idGcry.blklen [⟨[1, 2, 3, 4, 5, 6, 7, 8], [1, 0, 2]⟩]
      = [1, 0, 2, 0, 0, 0, 0, 0] ∧
    encMetadata (fun _ m => m) idGcry.blklen 0 [⟨[1, 2, 3, 4, 5, 6, 7, 8], [1, 0, 2]⟩]
      = "IV:0102030405060708\nEND:8\n".toList ∧
    (doDecrypt idGcry upstreamEnv
        (encCiphertext (fun _ m => m) idGcry.blklen [⟨[1, 2, 3, 4, 5, 6, 7, 8], [1, 0, 2]⟩])
        (encMetadata (fun _ m => m) idGcry.blklen 0 [⟨[1, 2, 3, 4, 5, 6, 7, 8], [1, 0, 2]⟩])
        ⟨[], 100⟩ (List.replicate 24 'k') ⟨(), 0⟩ 0 0).st.fpout.data = [1, 2] ∧
    allPlain [⟨[1, 2, 3, 4, 5, 6, 7, 8], [1, 0, 2]⟩] = [1, 0, 2] := by
  decide

end Rscryutil
